import Mathlib

/-!
# Verification of the tokendiff diff engine

Shallow embedding of the core of the `tokendiff` token-level diff engine
(tokenizer, confusing-token filter, diff postprocessing passes, line pairing)
together with proofs and refutations of the specification's claims.

Go slices of diff operations become Lean lists; Go `string` tokens become Lean
`String`; texts scanned rune-by-rune become `List Char`; Go `float64`
arithmetic in the custom `sqrt` helper is modelled with exact rationals `ℚ`
(the decisions taken by the code on the inputs considered here have margins
far wider than double rounding error); Go `int` loop counters become `Nat`
or `Int` as appropriate.
-/

namespace Tokendiff

/-- Operation represents a diff operation type (`Equal | Insert | Delete`),
from `tokendiff.go`. -/
inductive Operation where
  | Equal : Operation
  | Insert : Operation
  | Delete : Operation
deriving DecidableEq, Repr

/-- Diff represents a single diff operation on a token, from `tokendiff.go`
(`type Diff struct { Type Operation; Token string }`). -/
structure Diff where
  type : Operation
  token : String
deriving DecidableEq, Repr

/-- The old-side projection of a diff sequence: the tokens of all `Equal` and
`Delete` ops, in order. -/
def oldTokens (diffs : List Diff) : List String :=
  (diffs.filter (fun d => d.type ≠ Operation.Insert)).map (fun d => d.token)

/-- The new-side projection of a diff sequence: the tokens of all `Equal` and
`Insert` ops, in order. -/
def newTokens (diffs : List Diff) : List String :=
  (diffs.filter (fun d => d.type ≠ Operation.Delete)).map (fun d => d.token)

/-- `collectTokensOfType` from `postprocess.go`: collects the maximal prefix
run of ops of the given type, returning its tokens and the remaining ops
(the Go version returns the index after the run; the list suffix is the same
data). -/
def collectTokensOfType (t : Operation) : List Diff → List String × List Diff
  | [] => ([], [])
  | d :: ds =>
    if d.type = t then
      (d.token :: (collectTokensOfType t ds).1, (collectTokensOfType t ds).2)
    else ([], d :: ds)

/-- `findCommonPfx` from `postprocess.go`: length of the common prefix of
two token slices. -/
def findCommonPfx : List String → List String → Nat
  | a :: as', b :: bs => if a = b then findCommonPfx as' bs + 1 else 0
  | _, _ => 0

/-- `findCommonSfx` from `postprocess.go`: length of the common suffix of
two token slices (the Go version walks both slices from the back; counting
from the back is the same as counting a common prefix of the reversals). -/
def findCommonSfx (a b : List String) : Nat :=
  findCommonPfx a.reverse b.reverse

/-- `appendTokensAsDiffs` from `postprocess.go`. -/
def appendTokensAsDiffs (result : List Diff) (tokens : List String) (t : Operation) : List Diff :=
  result ++ tokens.map (fun tok => ⟨t, tok⟩)

/-- The backward-shift `for` loop at the top of `processDeleteInsertPair`
(`postprocess.go`): while the accumulated result ends in an `Equal` op whose
token equals the first delete token, rotate that token from the front of the
delete run to its back and drop the trailing `Equal`. Here the accumulated
result is passed reversed (head = most recent op) so that the loop is
structurally recursive; `processDeleteInsertPair` reverses around it. -/
def backShiftLoop : List Diff → List String → List Diff × List String
  | [], dts => ([], dts)
  | d :: rs, [] => (d :: rs, [])
  | d :: rs, t :: rest =>
    if d.type = Operation.Equal ∧ d.token = t then
      backShiftLoop rs (rest ++ [t])
    else (d :: rs, t :: rest)

/-- `processDeleteInsertPair` from `postprocess.go`: apply the backward shift,
then re-emit the common prefix of the delete/insert runs as `Equal`, then the
common suffix of what remains as trailing `Equal`, with the leftover deletes
and inserts in between. -/
def processDeleteInsertPair (result : List Diff) (deleteTokens insertTokens : List String) :
    List Diff :=
  let p := backShiftLoop result.reverse deleteTokens
  let res0 := p.1.reverse
  let dts := p.2
  let cpfx := findCommonPfx dts insertTokens
  let dts1 := dts.drop cpfx
  let its1 := insertTokens.drop cpfx
  let res1 := appendTokensAsDiffs res0 (dts.take cpfx) Operation.Equal
  let csfx := findCommonSfx dts1 its1
  let suffixTokens := dts1.drop (dts1.length - csfx)
  let dts2 := dts1.take (dts1.length - csfx)
  let its2 := its1.take (its1.length - csfx)
  let res2 := appendTokensAsDiffs res1 dts2 Operation.Delete
  let res3 := appendTokensAsDiffs res2 its2 Operation.Insert
  appendTokensAsDiffs res3 suffixTokens Operation.Equal

/-- The main loop of `ShiftBoundaries` (`postprocess.go`): walk the diff list;
each maximal `Delete` run and the `Insert` run following it are handed to
`processDeleteInsertPair` together with the output accumulated so far; all
other ops are appended unchanged. -/
def shiftBoundariesAux (result : List Diff) : List Diff → List Diff
  | [] => result
  | d :: ds =>
    if h : d.type = Operation.Delete then
      shiftBoundariesAux
        (processDeleteInsertPair result
          (collectTokensOfType Operation.Delete (d :: ds)).1
          (collectTokensOfType Operation.Insert
            (collectTokensOfType Operation.Delete (d :: ds)).2).1)
        (collectTokensOfType Operation.Insert
          (collectTokensOfType Operation.Delete (d :: ds)).2).2
    else shiftBoundariesAux (result ++ [d]) ds
termination_by l => l.length
decreasing_by
  · have hgen : ∀ (t : Operation) (l : List Diff),
        (collectTokensOfType t l).2.length ≤ l.length := by
      intro t l
      induction l with
      | nil => simp [collectTokensOfType]
      | cons x xs ih =>
        simp only [collectTokensOfType]
        by_cases hx : x.type = t
        · simp only [if_pos hx]
          exact Nat.le_trans ih (Nat.le_succ _)
        · simp [if_neg hx]
    have h0 : (collectTokensOfType Operation.Delete (d :: ds)).2
        = (collectTokensOfType Operation.Delete ds).2 := by
      simp [collectTokensOfType, h]
    rw [h0]
    have := Nat.le_trans (hgen Operation.Insert (collectTokensOfType Operation.Delete ds).2)
      (hgen Operation.Delete ds)
    simp only [List.length_cons]
    omega
  · simp only [List.length_cons]
    omega

/-- `ShiftBoundaries` from `postprocess.go`. -/
def ShiftBoundaries (diffs : List Diff) : List Diff :=
  if diffs = [] then diffs else shiftBoundariesAux [] diffs

/-- Whether the backward-shift loop in `processDeleteInsertPair` would fire at
least once for this accumulated result and delete run (the loop fires exactly
when its entry check succeeds). -/
def pdipShiftFires (result : List Diff) (dts : List String) : Bool :=
  match result.getLast?, dts with
  | some d, t :: _ => d.type = Operation.Equal ∧ d.token = t
  | _, _ => false

/-- Instrumentation of the `ShiftBoundaries` main loop: `true` iff no call to
`processDeleteInsertPair` made during the run fires its backward-shift loop. -/
def shiftBoundariesAuxNoShift (result : List Diff) : List Diff → Bool
  | [] => true
  | d :: ds =>
    if h : d.type = Operation.Delete then
      (!pdipShiftFires result (collectTokensOfType Operation.Delete (d :: ds)).1) &&
        shiftBoundariesAuxNoShift
          (processDeleteInsertPair result
            (collectTokensOfType Operation.Delete (d :: ds)).1
            (collectTokensOfType Operation.Insert
              (collectTokensOfType Operation.Delete (d :: ds)).2).1)
          (collectTokensOfType Operation.Insert
            (collectTokensOfType Operation.Delete (d :: ds)).2).2
    else shiftBoundariesAuxNoShift (result ++ [d]) ds
termination_by l => l.length
decreasing_by
  · have hgen : ∀ (t : Operation) (l : List Diff),
        (collectTokensOfType t l).2.length ≤ l.length := by
      intro t l
      induction l with
      | nil => simp [collectTokensOfType]
      | cons x xs ih =>
        simp only [collectTokensOfType]
        by_cases hx : x.type = t
        · simp only [if_pos hx]
          exact Nat.le_trans ih (Nat.le_succ _)
        · simp [if_neg hx]
    have h0 : (collectTokensOfType Operation.Delete (d :: ds)).2
        = (collectTokensOfType Operation.Delete ds).2 := by
      simp [collectTokensOfType, h]
    rw [h0]
    have := Nat.le_trans (hgen Operation.Insert (collectTokensOfType Operation.Delete ds).2)
      (hgen Operation.Delete ds)
    simp only [List.length_cons]
    omega
  · simp only [List.length_cons]
    omega

/-- `true` iff running `ShiftBoundaries` on `diffs` never fires the
backward-shift loop. -/
def shiftBoundariesNoShift (diffs : List Diff) : Bool :=
  shiftBoundariesAuxNoShift [] diffs

/-- The characters before which `FormatDiff` suppresses a space, from
`NeedsSpaceBefore` in `format.go` (the Go string literal
whose characters are the closing/opening delimiters, punctuation, quotes and
path separators; `Char.ofNat 39` is the apostrophe). -/
def noSpaceBeforeChars : List Char :=
  [')', ']', '}', '>', ',', '.', ':', ';', '!', '?', '"', Char.ofNat 39,
   '(', '[', '{', '<', '/', '\\']

/-- The characters after which `FormatDiff` suppresses a space, from
`NeedsSpaceAfter` in `format.go`. -/
def noSpaceAfterChars : List Char :=
  ['(', '[', '{', '<', '"', Char.ofNat 39, '/', '\\', '.']

/-- `NeedsSpaceBefore` from `format.go`: `true` unless the token is empty or
its first character is in the suppression set. (Go checks the first byte; all
set members are ASCII, and a non-ASCII first character starts with a lead byte
`≥ 0xC2`, so first-byte and first-character membership agree.) -/
def NeedsSpaceBefore (token : String) : Bool :=
  match token.data with
  | [] => false
  | c :: _ => !(noSpaceBeforeChars.contains c)

/-- `NeedsSpaceAfter` from `format.go`: `true` unless the token is empty or
its last character is in the suppression set. -/
def NeedsSpaceAfter (token : String) : Bool :=
  match token.data.getLast? with
  | none => false
  | some c => !(noSpaceAfterChars.contains c)

/-- The token-joining loop inside `AggregateDiffs`'s `flush` closure
(`postprocess.go`), tail after the first token: a single space goes between
two consecutive tokens only if both sides allow it. -/
def joinTail (prev : String) : List String → String
  | [] => ""
  | c :: cs =>
    (if NeedsSpaceAfter prev && NeedsSpaceBefore c then " " else "") ++ c ++ joinTail c cs

/-- The full token join of `AggregateDiffs`'s `flush` closure. -/
def joinTokens : List String → String
  | [] => ""
  | t :: ts => t ++ joinTail t ts

/-- The `flush` closure of `AggregateDiffs` (`postprocess.go`): emit one op
joining the accumulated run, unless the accumulator is empty or no type has
been seen yet (the Go sentinel `currentType = -1` is modelled by `none`). -/
def flushAgg (ct : Option Operation) (toks : List String) : List Diff :=
  match ct with
  | some t => if toks.isEmpty then [] else [⟨t, joinTokens toks⟩]
  | none => []

/-- The main loop of `AggregateDiffs` (`postprocess.go`), carrying the current
run type and accumulated tokens. -/
def aggGo (ct : Option Operation) (toks : List String) : List Diff → List Diff
  | [] => flushAgg ct toks
  | d :: ds =>
    if some d.type = ct then aggGo ct (toks ++ [d.token]) ds
    else flushAgg ct toks ++ aggGo (some d.type) [d.token] ds

/-- `AggregateDiffs` from `postprocess.go`: merge consecutive same-type ops
into one op whose token joins the run's tokens with the spacing rule. -/
def AggregateDiffs (diffs : List Diff) : List Diff :=
  if diffs.isEmpty then diffs else aggGo none [] diffs

/-- The main loop of `ApplyMatchContext` (`postprocess.go`): non-`Equal` ops
pass through; a maximal `Equal` run bounded by changes on both sides and
shorter than `minContext` is converted to a `Delete`+`Insert` pair per token.
`prevChange` records whether the op before the current position is a `Delete`
or `Insert` (`false` at the start of the list). -/
def amcGo (mc : Int) (prevChange : Bool) : List Diff → List Diff
  | [] => []
  | d :: ds =>
    if h : d.type = Operation.Equal then
      (if prevChange &&
          !((d :: ds).dropWhile (fun x => x.type = Operation.Equal)).isEmpty &&
          decide ((((d :: ds).takeWhile (fun x => x.type = Operation.Equal)).length : Int) < mc) then
        ((d :: ds).takeWhile (fun x => x.type = Operation.Equal)).flatMap
          (fun e => [⟨Operation.Delete, e.token⟩, ⟨Operation.Insert, e.token⟩])
      else (d :: ds).takeWhile (fun x => x.type = Operation.Equal)) ++
        amcGo mc false ((d :: ds).dropWhile (fun x => x.type = Operation.Equal))
    else d :: amcGo mc true ds
termination_by l => l.length
decreasing_by
  · have hgen : ∀ (p : Diff → Bool) (l : List Diff), (l.dropWhile p).length ≤ l.length := by
      intro p l
      induction l with
      | nil => simp
      | cons x xs ih =>
        by_cases hx : p x
        · simp only [List.dropWhile_cons, hx, if_pos]
          exact Nat.le_trans ih (Nat.le_succ _)
        · simp [List.dropWhile_cons, hx]
    have h0 : (d :: ds).dropWhile (fun x => decide (x.type = Operation.Equal))
        = ds.dropWhile (fun x => decide (x.type = Operation.Equal)) := by
      simp [List.dropWhile_cons, h]
    rw [h0]
    have := hgen (fun x => decide (x.type = Operation.Equal)) ds
    simp only [List.length_cons]
    omega
  · simp only [List.length_cons]
    omega

/-- `ApplyMatchContext` from `postprocess.go`. -/
def ApplyMatchContext (diffs : List Diff) (minContext : Int) : List Diff :=
  if minContext ≤ 0 ∨ diffs = [] then diffs else amcGo minContext false diffs

/-! ## Confusing-token filter (`preprocess.go`) -/

/-- Discard status `discardKeep` from `preprocess.go`. -/
def discardKeep : Nat := 0

/-- Discard status `discardDefinitely` from `preprocess.go`. -/
def discardDefinitely : Nat := 1

/-- Discard status `discardProvisional` from `preprocess.go`. -/
def discardProvisional : Nat := 2

/-- The Newton iteration inside `sqrt` (`preprocess.go`): up to `fuel`
iterations of `next := 0.5*(x + n/x)`, stopping (and returning the current
`x`, not `next`) as soon as `next` lies within `0.5` of `x`. The Go code
computes with `float64`; exact rationals stand in for it here. -/
def sqrtIter (n : ℚ) : Nat → ℚ → ℚ
  | 0, x => x
  | fuel + 1, x =>
    let next := (x + n / x) / 2
    if x - 1/2 ≤ next ∧ next ≤ x + 1/2 then x else sqrtIter n fuel next

/-- `sqrt` from `preprocess.go`: `0` for non-positive input, otherwise 100
fuel of Newton iteration starting from `x = n`. -/
def sqrtGo (n : ℚ) : ℚ :=
  if n ≤ 0 then 0 else sqrtIter n 100 n

/-- The confusing-token threshold computed at the top of
`DiscardConfusingTokens` (`preprocess.go`): `int(sqrt(float64(total)))`,
clamped below by 2. Go's `int()` truncates toward zero; `sqrtGo` is
nonnegative, so truncation is the floor. -/
def confusionThreshold (total : Nat) : Nat :=
  let many := (⌊sqrtGo (total : ℚ)⌋).toNat
  if many < 2 then 2 else many

/-- `markTokensForDiscard` from `preprocess.go`: a token whose occurrence
count in the other file exceeds the threshold is marked
`discardProvisional`, every other token `discardKeep`. The Go occurrence map
with zero default is modelled by the count function. -/
def markTokensForDiscard (tokens : List String) (otherCounts : String → Nat)
    (threshold : Nat) : List Nat :=
  tokens.map (fun t => if otherCounts t > threshold then discardProvisional else discardKeep)

/-- The scan loop of `applyProvisionalRules` (`preprocess.go`). `atStart` is
true while no token has been passed yet, so `hasLeft = !atStart` matches the
Go test `runStart > 0`. The Go ratio test
`float64(provisionalCount)/float64(runLen) >= 0.25` is the exact integer
comparison `runLen ≤ 4*provisionalCount` (both counts are far below `2^53`,
where `float64` division around `0.25` is decided exactly). The Go function
mutates the array in place; the returned list is the post-state. -/
def aprGo (atStart : Bool) : List Nat → List Nat
  | [] => []
  | s :: ss =>
    if h : s = discardKeep then s :: aprGo false ss
    else
      (if (!atStart) && !(((s :: ss).dropWhile (fun x => !(x = discardKeep : Bool))).isEmpty) &&
          decide (0 < ((s :: ss).takeWhile (fun x => !(x = discardKeep : Bool))).length) &&
          decide (((s :: ss).takeWhile (fun x => !(x = discardKeep : Bool))).length ≤
            4 * ((s :: ss).takeWhile (fun x => !(x = discardKeep : Bool))).countP
              (fun x => x = discardProvisional)) then
        ((s :: ss).takeWhile (fun x => !(x = discardKeep : Bool))).map
          (fun x => if x = discardProvisional then discardKeep else x)
      else (s :: ss).takeWhile (fun x => !(x = discardKeep : Bool))) ++
        aprGo false ((s :: ss).dropWhile (fun x => !(x = discardKeep : Bool)))
termination_by l => l.length
decreasing_by
  · simp only [List.length_cons]
    omega
  · have hgen : ∀ (p : Nat → Bool) (l : List Nat), (l.dropWhile p).length ≤ l.length := by
      intro p l
      induction l with
      | nil => simp
      | cons x xs ih =>
        by_cases hx : p x
        · simp only [List.dropWhile_cons, hx, if_pos]
          exact Nat.le_trans ih (Nat.le_succ _)
        · simp [List.dropWhile_cons, hx]
    have h0 : (s :: ss).dropWhile (fun x => !(x = discardKeep : Bool))
        = ss.dropWhile (fun x => !(x = discardKeep : Bool)) := by
      have hs : (!(s = discardKeep : Bool)) = true := by
        simp [h]
      simp only [List.dropWhile_cons, hs, if_pos]
    rw [h0]
    have := hgen (fun x => !(x = discardKeep : Bool)) ss
    simp only [List.length_cons]
    omega

/-- `applyProvisionalRules` from `preprocess.go`. -/
def applyProvisionalRules (discard : List Nat) : List Nat :=
  aprGo true discard

/-- The filtered-list/index-map construction at the end of
`DiscardConfusingTokens` (`preprocess.go`): keep exactly the tokens whose
final status is `discardKeep`, recording their original indices (counting
from `i`). -/
def buildFiltered : List String → List Nat → Nat → List String × List Nat
  | t :: ts, s :: ss, i =>
    let p := buildFiltered ts ss (i + 1)
    if s = discardKeep then (t :: p.1, i :: p.2) else p
  | _, _, _ => ([], [])

/-- `DiscardConfusingTokens` from `preprocess.go`. Returns
`(filtered1, filtered2, map1, map2)`. -/
def DiscardConfusingTokens (tokens1 tokens2 : List String) :
    List String × List String × List Nat × List Nat :=
  let counts1 : String → Nat := fun t => tokens1.count t
  let counts2 : String → Nat := fun t => tokens2.count t
  let many := confusionThreshold (tokens1.length + tokens2.length)
  let discard1 := applyProvisionalRules (markTokensForDiscard tokens1 counts2 many)
  let discard2 := applyProvisionalRules (markTokensForDiscard tokens2 counts1 many)
  let f1 := buildFiltered tokens1 discard1 0
  let f2 := buildFiltered tokens2 discard2 0
  (f1.1, f2.1, f1.2, f2.2)

/-! ## Similarity line pairing (`linediff.go`) -/

/-- `LinePairing` from `linediff.go`. The Go similarity is a `float64`; the
code only ever compares similarities with `>` against other similarities and
the threshold, so exact rationals model it. -/
structure LinePairing where
  deleteIndex : Nat
  insertIndex : Nat
  similarity : ℚ
deriving DecidableEq, Repr

/-- The inner `for j, ins := range inserts` loop of `FindSimilarityPairings`
(`linediff.go`), scanning the indexed inserts and keeping the best not-yet-used
candidate strictly above the current best score. The Go sentinel `bestJ = -1`
is modelled by `none`. `sim` stands for `ComputeTokenSimilarity(·, ·, opts)`:
the claims quantify over all `opts`, so the similarity function is abstracted
as a parameter. -/
def bestLoop (sim : String → String → ℚ) (del : String) (used : List Bool) :
    List (Nat × String) → Option Nat × ℚ → Option Nat × ℚ
  | [], best => best
  | (j, ins) :: rest, best =>
    if used.getD j false then bestLoop sim del used rest best
    else if sim del ins > best.2 then bestLoop sim del used rest (some j, sim del ins)
    else bestLoop sim del used rest best

/-- The outer loop of `FindSimilarityPairings` (`linediff.go`), also returning
the final `usedInserts` vector. -/
def fspGo (sim : String → String → ℚ) (threshold : ℚ) (inserts : List String) :
    List String → Nat → List Bool → List LinePairing × List Bool
  | [], _, used => ([], used)
  | del :: rest, i, used =>
    match hb : (bestLoop sim del used inserts.enum (none, threshold)).1 with
    | some j =>
      let r := fspGo sim threshold inserts rest (i + 1) (used.set j true)
      (⟨i, j, (bestLoop sim del used inserts.enum (none, threshold)).2⟩ :: r.1, r.2)
    | none => fspGo sim threshold inserts rest (i + 1) used

/-- `FindSimilarityPairings` from `linediff.go`. -/
def FindSimilarityPairings (deletes inserts : List String) (sim : String → String → ℚ)
    (threshold : ℚ) : List LinePairing :=
  (fspGo sim threshold inserts deletes 0 (List.replicate inserts.length false)).1

/-- The `usedInserts` state of `FindSimilarityPairings` just before the
`i`-th deleted line is processed. -/
def fspUsedState (deletes inserts : List String) (sim : String → String → ℚ)
    (threshold : ℚ) (i : Nat) : List Bool :=
  (fspGo sim threshold inserts (deletes.take i) 0 (List.replicate inserts.length false)).2

/-! ## Tokenizer (`tokenize.go`) -/

/-- `Options` from `tokendiff.go`; the Go `Delimiters`/`Whitespace` strings
are their character lists. -/
structure Options where
  delimiters : List Char
  whitespace : List Char
  usePunctuation : Bool
  preserveWhitespace : Bool
  ignoreCase : Bool

/-- `DefaultDelimiters` from `tokendiff.go` (the empty string). -/
def DefaultDelimiters : List Char := []

/-- `DefaultWhitespace` from `tokendiff.go`. -/
def DefaultWhitespace : List Char := [' ', '\t', '\n', '\r']

/-- `isWhitespace` from `tokenize.go`: exactly space, tab, newline and
carriage return. -/
def isWhitespace (r : Char) : Bool :=
  (r == ' ') || (r == '\t') || (r == '\n') || (r == '\r')

/-- The `flushWord` closure of `Tokenize` (`tokenize.go`): emit the
accumulated word if nonempty. -/
def flushWord (w : List Char) : List (List Char) :=
  if w.isEmpty then [] else [w]

/-- The scanning loop of `Tokenize` (`tokenize.go`): delimiters become
single-character tokens, whitespace flushes the word (and is kept only under
`preserveWhitespace`), everything else accumulates into the current word. -/
def tokGo (isDelim isWS : Char → Bool) (preserve : Bool) :
    List Char → List Char → List (List Char)
  | currentWord, [] => flushWord currentWord
  | currentWord, r :: rest =>
    if isDelim r then flushWord currentWord ++ [[r]] ++ tokGo isDelim isWS preserve [] rest
    else if isWS r then
      flushWord currentWord ++ (if preserve then [[r]] else []) ++
        tokGo isDelim isWS preserve [] rest
    else tokGo isDelim isWS preserve (currentWord ++ [r]) rest

/-- `Tokenize` from `tokenize.go`. `isPunct` stands for the Go standard
library's `unicode.IsPunct` table (an external collaborator); it is consulted
only when `opts.usePunctuation` is set. An empty `Delimiters` option is
replaced by `DefaultDelimiters` (itself empty), and an empty `Whitespace`
option falls back to `isWhitespace`. -/
def Tokenize (isPunct : Char → Bool) (text : List Char) (opts : Options) : List (List Char) :=
  let isDelimiter : Char → Bool :=
    if opts.usePunctuation then isPunct
    else fun r => (if opts.delimiters.isEmpty then DefaultDelimiters else opts.delimiters).contains r
  let isWS : Char → Bool :=
    if opts.whitespace.isEmpty then isWhitespace else fun r => opts.whitespace.contains r
  tokGo isDelimiter isWS opts.preserveWhitespace [] text

/-- Modelled from the spec: the Unicode white-space code points ("only
Unicode whitespace splits tokens"), i.e. the characters with the Unicode
`White_Space` property. Used only to state the spec's claimed tokenizer
fallback behavior, to be compared with the behavior of `Tokenize`. -/
def unicodeWhitespaceChars : List Char :=
  [Char.ofNat 0x9, Char.ofNat 0xA, Char.ofNat 0xB, Char.ofNat 0xC, Char.ofNat 0xD,
   ' ', Char.ofNat 0x85, Char.ofNat 0xA0, Char.ofNat 0x1680,
   Char.ofNat 0x2000, Char.ofNat 0x2001, Char.ofNat 0x2002, Char.ofNat 0x2003,
   Char.ofNat 0x2004, Char.ofNat 0x2005, Char.ofNat 0x2006, Char.ofNat 0x2007,
   Char.ofNat 0x2008, Char.ofNat 0x2009, Char.ofNat 0x200A,
   Char.ofNat 0x2028, Char.ofNat 0x2029, Char.ofNat 0x202F, Char.ofNat 0x205F,
   Char.ofNat 0x3000]

/-- Modelled from the spec: membership in the Unicode white-space set. -/
def isUnicodeWhitespace (r : Char) : Bool :=
  unicodeWhitespaceChars.contains r

/-- Splitting a text at exactly the characters satisfying `p`, keeping the
nonempty word tokens: the reference behavior against which the claimed and
actual fallback tokenizations are stated. -/
def splitAtSeparators (p : Char → Bool) (text : List Char) : List (List Char) :=
  (text.splitOnP p).filter (fun w => !w.isEmpty)

/-- The tokenizer options with empty delimiter and whitespace sets and all
flags off, the configuration named by claim C9. -/
def emptySetsOptions : Options :=
  ⟨[], [], false, false, false⟩

/-! ## General lemmas -/

theorem sqrtIter_succ (n x : ℚ) (fuel : Nat) :
    sqrtIter n (fuel + 1) x =
      if x - 1/2 ≤ (x + n / x) / 2 ∧ (x + n / x) / 2 ≤ x + 1/2 then x
      else sqrtIter n fuel ((x + n / x) / 2) := rfl

theorem sqrtGo_eight : sqrtGo 8 = 113/36 := by
  have h1 : sqrtGo 8 = sqrtIter 8 100 8 := by
    rw [sqrtGo, if_neg (by norm_num)]
  have h2 : sqrtIter 8 100 8 = sqrtIter 8 99 (9/2) := by
    rw [show (100 : Nat) = 99 + 1 from rfl, sqrtIter_succ, if_neg (by norm_num)]
    norm_num
  have h3 : sqrtIter 8 99 (9/2) = sqrtIter 8 98 (113/36) := by
    rw [show (99 : Nat) = 98 + 1 from rfl, sqrtIter_succ, if_neg (by norm_num)]
    norm_num
  have h4 : sqrtIter 8 98 (113/36) = 113/36 := by
    rw [show (98 : Nat) = 97 + 1 from rfl, sqrtIter_succ, if_pos (by norm_num)]
  rw [h1, h2, h3, h4]

theorem confusionThreshold_eight : confusionThreshold 8 = 3 := by
  have hfl : (⌊sqrtGo ((8 : Nat) : ℚ)⌋ : Int) = 3 := by
    rw [show (((8 : Nat)) : ℚ) = 8 by norm_num, sqrtGo_eight, Int.floor_eq_iff]
    norm_num
  rw [confusionThreshold]
  simp only [hfl]
  rfl

theorem oldTokens_append (a b : List Diff) :
    oldTokens (a ++ b) = oldTokens a ++ oldTokens b := by
  simp [oldTokens]

theorem newTokens_append (a b : List Diff) :
    newTokens (a ++ b) = newTokens a ++ newTokens b := by
  simp [newTokens]

theorem oldTokens_map_delete (l : List String) :
    oldTokens (l.map (fun tok => (⟨Operation.Delete, tok⟩ : Diff))) = l := by
  induction l with
  | nil => rfl
  | cons x xs ih =>
    simpa [oldTokens, List.filter_cons] using ih

theorem oldTokens_map_equal (l : List String) :
    oldTokens (l.map (fun tok => (⟨Operation.Equal, tok⟩ : Diff))) = l := by
  induction l with
  | nil => rfl
  | cons x xs ih =>
    simpa [oldTokens, List.filter_cons] using ih

theorem oldTokens_map_insert (l : List String) :
    oldTokens (l.map (fun tok => (⟨Operation.Insert, tok⟩ : Diff))) = [] := by
  induction l with
  | nil => rfl
  | cons x xs ih =>
    simpa [oldTokens, List.filter_cons] using ih

theorem newTokens_map_insert (l : List String) :
    newTokens (l.map (fun tok => (⟨Operation.Insert, tok⟩ : Diff))) = l := by
  induction l with
  | nil => rfl
  | cons x xs ih =>
    simpa [newTokens, List.filter_cons] using ih

theorem newTokens_map_equal (l : List String) :
    newTokens (l.map (fun tok => (⟨Operation.Equal, tok⟩ : Diff))) = l := by
  induction l with
  | nil => rfl
  | cons x xs ih =>
    simpa [newTokens, List.filter_cons] using ih

theorem newTokens_map_delete (l : List String) :
    newTokens (l.map (fun tok => (⟨Operation.Delete, tok⟩ : Diff))) = [] := by
  induction l with
  | nil => rfl
  | cons x xs ih =>
    simpa [newTokens, List.filter_cons] using ih

theorem fcp_le_left (a b : List String) : findCommonPfx a b ≤ a.length := by
  induction a generalizing b with
  | nil => simp [findCommonPfx]
  | cons x xs ih =>
    cases b with
    | nil => simp [findCommonPfx]
    | cons y ys =>
      rw [findCommonPfx]
      by_cases h : x = y
      · simp only [if_pos h, List.length_cons]
        exact Nat.succ_le_succ (ih ys)
      · simp [if_neg h]

theorem fcp_le_right (a b : List String) : findCommonPfx a b ≤ b.length := by
  induction a generalizing b with
  | nil => simp [findCommonPfx]
  | cons x xs ih =>
    cases b with
    | nil => simp [findCommonPfx]
    | cons y ys =>
      rw [findCommonPfx]
      by_cases h : x = y
      · simp only [if_pos h, List.length_cons]
        exact Nat.succ_le_succ (ih ys)
      · simp [if_neg h]

theorem take_fcp_eq (a b : List String) :
    a.take (findCommonPfx a b) = b.take (findCommonPfx a b) := by
  induction a generalizing b with
  | nil => simp [findCommonPfx]
  | cons x xs ih =>
    cases b with
    | nil => simp [findCommonPfx]
    | cons y ys =>
      rw [findCommonPfx]
      by_cases h : x = y
      · subst h
        rw [if_pos rfl]
        simp only [List.take_succ_cons]
        rw [ih ys]
      · simp [if_neg h]

theorem fcs_le_left (a b : List String) : findCommonSfx a b ≤ a.length := by
  simpa using fcp_le_left a.reverse b.reverse

theorem fcs_le_right (a b : List String) : findCommonSfx a b ≤ b.length := by
  simpa using fcp_le_right a.reverse b.reverse

theorem drop_fcs_eq (a b : List String) :
    a.drop (a.length - findCommonSfx a b) = b.drop (b.length - findCommonSfx a b) := by
  have h := take_fcp_eq a.reverse b.reverse
  have ha : (a.reverse.take (findCommonSfx a b)).reverse
      = a.drop (a.length - findCommonSfx a b) := by
    rw [List.reverse_take, List.length_reverse, List.reverse_reverse]
  have hb : (b.reverse.take (findCommonSfx a b)).reverse
      = b.drop (b.length - findCommonSfx a b) := by
    rw [List.reverse_take, List.length_reverse, List.reverse_reverse]
  rw [← ha, ← hb, findCommonSfx, h]

theorem ctt_fst (t : Operation) (l : List Diff) :
    (collectTokensOfType t l).1
      = (l.takeWhile (fun d => d.type = t)).map (fun d => d.token) := by
  induction l with
  | nil => simp [collectTokensOfType]
  | cons d ds ih =>
    by_cases h : d.type = t
    · simp [collectTokensOfType, h, ih, List.takeWhile_cons]
    · simp [collectTokensOfType, h, List.takeWhile_cons]

theorem ctt_snd (t : Operation) (l : List Diff) :
    (collectTokensOfType t l).2 = l.dropWhile (fun d => d.type = t) := by
  induction l with
  | nil => simp [collectTokensOfType]
  | cons d ds ih =>
    by_cases h : d.type = t
    · simp [collectTokensOfType, h, ih, List.dropWhile_cons]
    · simp [collectTokensOfType, h, List.dropWhile_cons]

theorem oldTokens_eq_map (l : List Diff) (h : ∀ x ∈ l, x.type ≠ Operation.Insert) :
    oldTokens l = l.map (fun d => d.token) := by
  rw [oldTokens, List.filter_eq_self.mpr]
  intro a ha
  simpa using h a ha

theorem oldTokens_eq_nil (l : List Diff) (h : ∀ x ∈ l, x.type = Operation.Insert) :
    oldTokens l = [] := by
  rw [oldTokens, List.filter_eq_nil_iff.mpr, List.map_nil]
  intro a ha
  simpa using h a ha

theorem newTokens_eq_map (l : List Diff) (h : ∀ x ∈ l, x.type ≠ Operation.Delete) :
    newTokens l = l.map (fun d => d.token) := by
  rw [newTokens, List.filter_eq_self.mpr]
  intro a ha
  simpa using h a ha

theorem newTokens_eq_nil (l : List Diff) (h : ∀ x ∈ l, x.type = Operation.Delete) :
    newTokens l = [] := by
  rw [newTokens, List.filter_eq_nil_iff.mpr, List.map_nil]
  intro a ha
  simpa using h a ha

theorem oldTokens_decomp (l : List Diff) :
    oldTokens l =
      (collectTokensOfType Operation.Delete l).1 ++
        oldTokens (collectTokensOfType Operation.Insert
          (collectTokensOfType Operation.Delete l).2).2 := by
  conv_lhs =>
    rw [← List.takeWhile_append_dropWhile
      (p := fun d => decide (d.type = Operation.Delete)) (l := l)]
  rw [oldTokens_append, ctt_fst, ctt_snd, ctt_snd]
  congr 1
  · apply oldTokens_eq_map
    intro x hx
    have hd := List.mem_takeWhile_imp hx
    simp only [decide_eq_true_eq] at hd
    rw [hd]
    exact fun hc => Operation.noConfusion hc
  · conv_lhs =>
    rw [← List.takeWhile_append_dropWhile
      (p := fun d => decide (d.type = Operation.Insert))
      (l := l.dropWhile (fun d => decide (d.type = Operation.Delete)))]
    rw [oldTokens_append]
    rw [oldTokens_eq_nil _ (fun x hx => by
      have hd := List.mem_takeWhile_imp hx
      simpa using hd)]
    rw [List.nil_append]

theorem newTokens_decomp (l : List Diff) :
    newTokens l =
      (collectTokensOfType Operation.Insert
          (collectTokensOfType Operation.Delete l).2).1 ++
        newTokens (collectTokensOfType Operation.Insert
          (collectTokensOfType Operation.Delete l).2).2 := by
  conv_lhs =>
    rw [← List.takeWhile_append_dropWhile
      (p := fun d => decide (d.type = Operation.Delete)) (l := l)]
  rw [newTokens_append, ctt_fst, ctt_snd, ctt_snd]
  rw [newTokens_eq_nil _ (fun x hx => by
    have hd := List.mem_takeWhile_imp hx
    simpa using hd)]
  rw [List.nil_append]
  conv_lhs =>
    rw [← List.takeWhile_append_dropWhile
      (p := fun d => decide (d.type = Operation.Insert))
      (l := l.dropWhile (fun d => decide (d.type = Operation.Delete)))]
  rw [newTokens_append]
  congr 1
  apply newTokens_eq_map
  intro x hx
  have hd := List.mem_takeWhile_imp hx
  simp only [decide_eq_true_eq] at hd
  rw [hd]
  exact fun hc => Operation.noConfusion hc

theorem pdipShiftFires_some (res : List Diff) (d : Diff) (t : String) (rest : List String)
    (hl : res.getLast? = some d) :
    pdipShiftFires res (t :: rest) = decide (d.type = Operation.Equal ∧ d.token = t) := by
  unfold pdipShiftFires
  rw [hl]

theorem backShiftLoop_no_fire (res : List Diff) (dts : List String)
    (h : pdipShiftFires res dts = false) :
    backShiftLoop res.reverse dts = (res.reverse, dts) := by
  cases hrev : res.reverse with
  | nil =>
    cases dts <;> rfl
  | cons d rs =>
    have hlast : res.getLast? = some d := by
      rw [← List.head?_reverse, hrev, List.head?_cons]
    cases dts with
    | nil => rfl
    | cons t rest =>
      rw [pdipShiftFires_some res d t rest hlast] at h
      simp only [decide_eq_false_iff_not] at h
      rw [backShiftLoop, if_neg h]

theorem pdip_oldTokens (res : List Diff) (dts its : List String)
    (h : pdipShiftFires res dts = false) :
    oldTokens (processDeleteInsertPair res dts its) = oldTokens res ++ dts := by
  rw [processDeleteInsertPair]
  simp only [backShiftLoop_no_fire res dts h, List.reverse_reverse, appendTokensAsDiffs]
  simp only [List.append_assoc, oldTokens_append, oldTokens_map_equal, oldTokens_map_delete,
    oldTokens_map_insert, List.nil_append]
  congr 1
  rw [List.take_append_drop, List.take_append_drop]

theorem pdip_newTokens (res : List Diff) (dts its : List String)
    (h : pdipShiftFires res dts = false) :
    newTokens (processDeleteInsertPair res dts its) = newTokens res ++ its := by
  rw [processDeleteInsertPair]
  simp only [backShiftLoop_no_fire res dts h, List.reverse_reverse, appendTokensAsDiffs]
  simp only [List.append_assoc, newTokens_append, newTokens_map_equal, newTokens_map_delete,
    newTokens_map_insert, List.nil_append]
  congr 1
  rw [take_fcp_eq dts its]
  rw [drop_fcs_eq (dts.drop (findCommonPfx dts its)) (its.drop (findCommonPfx dts its))]
  rw [List.take_append_drop, List.take_append_drop]

theorem sba_noShift_proj (result rest : List Diff)
    (h : shiftBoundariesAuxNoShift result rest = true) :
    oldTokens (shiftBoundariesAux result rest) = oldTokens result ++ oldTokens rest ∧
    newTokens (shiftBoundariesAux result rest) = newTokens result ++ newTokens rest := by
  induction result, rest using shiftBoundariesAux.induct with
  | case1 result =>
    simp [shiftBoundariesAux, oldTokens, newTokens]
  | case2 result d ds hdel ih =>
    rw [shiftBoundariesAuxNoShift, dif_pos hdel, Bool.and_eq_true] at h
    obtain ⟨hfire, hrest⟩ := h
    rw [Bool.not_eq_eq_eq_not, Bool.not_true] at hfire
    rw [shiftBoundariesAux, dif_pos hdel]
    obtain ⟨iho, ihn⟩ := ih hrest
    constructor
    · rw [iho, pdip_oldTokens _ _ _ hfire, List.append_assoc]
      rw [oldTokens_decomp (d :: ds)]
    · rw [ihn, pdip_newTokens _ _ _ hfire, List.append_assoc]
      rw [newTokens_decomp (d :: ds)]
  | case3 result d ds hdel ih =>
    rw [shiftBoundariesAuxNoShift, dif_neg hdel] at h
    rw [shiftBoundariesAux, dif_neg hdel]
    obtain ⟨iho, ihn⟩ := ih h
    constructor
    · rw [iho, oldTokens_append, List.append_assoc, ← oldTokens_append]
      rw [List.singleton_append]
    · rw [ihn, newTokens_append, List.append_assoc, ← newTokens_append]
      rw [List.singleton_append]

/-! ## Claim C1 -/

/-- C1 (counterexample): `ShiftBoundaries` does not preserve the `Equal+Delete`
and `Equal+Insert` token projections on every input. On
`[Equal "x", Delete "x", Insert "y"]` the backward shift absorbs the trailing
`Equal "x"` into the delete run and drops it, returning
`[Delete "x", Insert "y"]`: the old projection shrinks from `["x", "x"]` to
`["x"]` and the new projection from `["x", "y"]` to `["y"]`. -/
theorem claim_C1_counterexample :
    ShiftBoundaries
        [⟨Operation.Equal, "x"⟩, ⟨Operation.Delete, "x"⟩, ⟨Operation.Insert, "y"⟩]
      = [⟨Operation.Delete, "x"⟩, ⟨Operation.Insert, "y"⟩] ∧
    oldTokens (ShiftBoundaries
        [⟨Operation.Equal, "x"⟩, ⟨Operation.Delete, "x"⟩, ⟨Operation.Insert, "y"⟩])
      ≠ oldTokens
        [⟨Operation.Equal, "x"⟩, ⟨Operation.Delete, "x"⟩, ⟨Operation.Insert, "y"⟩] ∧
    newTokens (ShiftBoundaries
        [⟨Operation.Equal, "x"⟩, ⟨Operation.Delete, "x"⟩, ⟨Operation.Insert, "y"⟩])
      ≠ newTokens
        [⟨Operation.Equal, "x"⟩, ⟨Operation.Delete, "x"⟩, ⟨Operation.Insert, "y"⟩] := by
  refine ⟨?_, ?_, ?_⟩ <;>
    simp [ShiftBoundaries, shiftBoundariesAux, collectTokensOfType, processDeleteInsertPair,
      backShiftLoop, findCommonPfx, findCommonSfx, appendTokensAsDiffs, oldTokens, newTokens]

/-- C1 (amended): every postprocessing run of `ShiftBoundaries` in which the
backward-shift loop never fires preserves both projections: the `Equal+Delete`
token concatenation of the output equals that of the input, and likewise for
`Equal+Insert`. (Each firing of the backward shift instead removes one token
from both projections, as the counterexample shows.) -/
theorem claim_C1_shift_preserves_projections_when_no_backshift
    (diffs : List Diff) (h : shiftBoundariesNoShift diffs = true) :
    oldTokens (ShiftBoundaries diffs) = oldTokens diffs ∧
    newTokens (ShiftBoundaries diffs) = newTokens diffs := by
  rw [ShiftBoundaries]
  by_cases hd : diffs = []
  · rw [if_pos hd]
    exact ⟨rfl, rfl⟩
  · rw [if_neg hd]
    have hres := sba_noShift_proj [] diffs h
    simpa [oldTokens, newTokens] using hres

/-- C1 (witness): the amended theorem applied to the spec's own
common-prefix example, whose run never fires the backward shift. -/
theorem claim_C1_witness :
    shiftBoundariesNoShift
        [⟨Operation.Delete, "x"⟩, ⟨Operation.Delete, "a"⟩,
         ⟨Operation.Insert, "x"⟩, ⟨Operation.Insert, "b"⟩] = true ∧
    (oldTokens (ShiftBoundaries
        [⟨Operation.Delete, "x"⟩, ⟨Operation.Delete, "a"⟩,
         ⟨Operation.Insert, "x"⟩, ⟨Operation.Insert, "b"⟩])
      = oldTokens
        [⟨Operation.Delete, "x"⟩, ⟨Operation.Delete, "a"⟩,
         ⟨Operation.Insert, "x"⟩, ⟨Operation.Insert, "b"⟩] ∧
    newTokens (ShiftBoundaries
        [⟨Operation.Delete, "x"⟩, ⟨Operation.Delete, "a"⟩,
         ⟨Operation.Insert, "x"⟩, ⟨Operation.Insert, "b"⟩])
      = newTokens
        [⟨Operation.Delete, "x"⟩, ⟨Operation.Delete, "a"⟩,
         ⟨Operation.Insert, "x"⟩, ⟨Operation.Insert, "b"⟩]) :=
  ⟨by simp [shiftBoundariesNoShift, shiftBoundariesAuxNoShift, pdipShiftFires,
      collectTokensOfType, processDeleteInsertPair, backShiftLoop, findCommonPfx,
      findCommonSfx, appendTokensAsDiffs],
   claim_C1_shift_preserves_projections_when_no_backshift _
    (by simp [shiftBoundariesNoShift, shiftBoundariesAuxNoShift, pdipShiftFires,
      collectTokensOfType, processDeleteInsertPair, backShiftLoop, findCommonPfx,
      findCommonSfx, appendTokensAsDiffs])⟩

/-! ## Claim C2 -/

/-- C2 (code bug): for `tokens1 = [a, b, c, d]` and `tokens2 = [e, f, g, h]`
(`total = 8`) the threshold computed by `DiscardConfusingTokens` is `3`, but
`max(2, floor(sqrt(8)))` is `2`: the custom Newton-iteration `sqrt` stops
within `0.5` of the previous iterate and returns `113/36 ≈ 3.139` for input
`8`, although its own doc comment promises the integer square root. -/
theorem claim_C2_threshold_deviates_from_exact_sqrt :
    confusionThreshold ((["a", "b", "c", "d"] : List String).length
        + (["e", "f", "g", "h"] : List String).length) = 3 ∧
    (⌊Real.sqrt 8⌋ : Int) = 2 ∧
    max 2 (⌊Real.sqrt 8⌋ : Int).toNat = 2 := by
  have hfl : (⌊Real.sqrt 8⌋ : Int) = 2 := by
    rw [Int.floor_eq_iff]
    constructor
    · rw [show ((2 : Int) : ℝ) = 2 by norm_num]
      rw [show (2 : ℝ) = Real.sqrt 4 by
        rw [show (4 : ℝ) = 2 ^ 2 by norm_num, Real.sqrt_sq (by norm_num)]]
      exact Real.sqrt_le_sqrt (by norm_num)
    · rw [show ((2 : Int) : ℝ) + 1 = 3 by norm_num]
      have h9 := Real.sqrt_lt_sqrt (x := 8) (y := 9) (by norm_num) (by norm_num)
      rw [show (9 : ℝ) = 3 ^ 2 by norm_num, Real.sqrt_sq (by norm_num)] at h9
      exact h9
  refine ⟨?_, hfl, ?_⟩
  · simpa using confusionThreshold_eight
  · rw [hfl]
    rfl

/-! ## Claim C8 -/

theorem count_nil_mark (ts : List String) (many : Nat) :
    markTokensForDiscard ts (fun t => ([] : List String).count t) many
      = ts.map (fun _ => discardKeep) := by
  rw [markTokensForDiscard]
  apply List.map_congr_left
  intro t _
  rw [List.count_nil]
  rw [if_neg (by omega)]

theorem aprGo_all_keep (l : List Nat) (h : ∀ s ∈ l, s = discardKeep) :
    ∀ b, aprGo b l = l := by
  induction l with
  | nil => intro b; rw [aprGo]
  | cons s ss ih =>
    intro b
    have hs : s = discardKeep := h s (List.mem_cons_self s ss)
    rw [aprGo, dif_pos hs]
    rw [ih (fun x hx => h x (List.mem_cons_of_mem s hx)) false]

theorem buildFiltered_all_keep (ts : List String) :
    ∀ i, buildFiltered ts (ts.map (fun _ => discardKeep)) i = (ts, List.range' i ts.length) := by
  induction ts with
  | nil => intro i; rfl
  | cons t ts ih =>
    intro i
    rw [List.map_cons, buildFiltered, ih (i + 1), if_pos rfl]
    rw [List.length_cons, List.range'_succ]

/-- C8 (counterexample): with `tokens1 = []` and `tokens2 = ["a"]` (one side
empty, the other not), `DiscardConfusingTokens` returns
`([], ["a"], [], [0])`, not four empty sequences: only the empty side's
outputs are empty, the nonempty side keeps its token. -/
theorem claim_C8_counterexample :
    DiscardConfusingTokens [] ["a"] = ([], ["a"], [], [0]) ∧
    DiscardConfusingTokens [] ["a"] ≠ ([], [], [], []) := by
  have h : DiscardConfusingTokens [] ["a"] = ([], ["a"], [], [0]) := by
    rw [DiscardConfusingTokens]
    have h1 := count_nil_mark ["a"]
      (confusionThreshold (([] : List String).length + (["a"] : List String).length))
    have h2 := aprGo_all_keep (["a"].map (fun _ => discardKeep)) (by simp) true
    simp only [h1, applyProvisionalRules, h2]
    rw [buildFiltered_all_keep ["a"] 0]
    rfl
  exact ⟨h, by rw [h]; simp⟩

/-- C8 (amended): if both inputs of `DiscardConfusingTokens` are empty all
four outputs are empty; if exactly one side is empty, that side's filtered
list and index map are empty while the other side's filtered list equals its
input with the identity index map; the function is total (no failure). -/
theorem claim_C8_empty_side_outputs (ts : List String) :
    DiscardConfusingTokens [] ts = ([], ts, [], List.range ts.length) ∧
    DiscardConfusingTokens ts [] = (ts, [], List.range ts.length, []) ∧
    DiscardConfusingTokens [] [] = ([], [], [], []) := by
  refine ⟨?_, ?_, ?_⟩
  · rw [DiscardConfusingTokens]
    have h1 := count_nil_mark ts (confusionThreshold ((([] : List String)).length + ts.length))
    have h2 := aprGo_all_keep (ts.map (fun _ => discardKeep)) (by simp) true
    simp only [h1, applyProvisionalRules, h2]
    rw [buildFiltered_all_keep ts 0, List.range_eq_range']
    rfl
  · rw [DiscardConfusingTokens]
    have h1 := count_nil_mark ts (confusionThreshold (ts.length + (([] : List String)).length))
    have h2 := aprGo_all_keep (ts.map (fun _ => discardKeep)) (by simp) true
    simp only [h1, applyProvisionalRules, h2]
    rw [buildFiltered_all_keep ts 0, List.range_eq_range']
    rfl
  · rfl

/-! ## Claim C9 -/

theorem modifyHead_self {α : Type} (l : List α) : l.modifyHead (fun s => s) = l := by
  cases l <;> rfl

theorem tokGo_no_delim (isDelim isWS : Char → Bool) (hd : ∀ r, isDelim r = false) :
    ∀ (text acc : List Char),
    tokGo isDelim isWS false acc text
      = (((text.splitOnP isWS).modifyHead (fun s => acc ++ s)).filter
          (fun w => !w.isEmpty)) := by
  intro text
  induction text with
  | nil =>
    intro acc
    rw [tokGo, List.splitOnP_nil]
    by_cases ha : acc = []
    · subst ha; rfl
    · simp [flushWord, ha]
  | cons r rest ih =>
    intro acc
    rw [tokGo, hd r, if_neg (by simp)]
    by_cases hw : isWS r
    · rw [if_pos hw, List.splitOnP_cons, hw, if_pos rfl]
      rw [ih []]
      by_cases ha : acc = []
      · subst ha
        simp [flushWord, List.filter_cons, modifyHead_self]
      · simp [flushWord, ha, List.filter_cons, modifyHead_self]
    · rw [if_neg hw, List.splitOnP_cons]
      rw [show isWS r = false from by simpa using hw, if_neg (by simp)]
      rw [ih (acc ++ [r]), List.modifyHead_modifyHead]
      congr 2
      funext s
      simp only [Function.comp_apply, List.append_assoc, List.nil_append,
        List.singleton_append]

/-- C9 (counterexample): with empty delimiter and whitespace sets, `Tokenize`
does not split at every Unicode whitespace code point: a vertical tab
(`U+000B`, Unicode white space) does not separate tokens —
`Tokenize "a\x0Bb"` is the single token `"a\x0Bb"`, while splitting at
Unicode whitespace gives `["a", "b"]`. -/
theorem claim_C9_counterexample :
    isUnicodeWhitespace (Char.ofNat 0xB) = true ∧
    splitAtSeparators isUnicodeWhitespace ['a', Char.ofNat 0xB, 'b']
      = [['a'], ['b']] ∧
    Tokenize (fun _ => false) ['a', Char.ofNat 0xB, 'b'] emptySetsOptions
      = [['a', Char.ofNat 0xB, 'b']] := by
  refine ⟨by decide, by decide, ?_⟩
  simp [Tokenize, emptySetsOptions, tokGo, flushWord, isWhitespace, DefaultDelimiters]

/-- C9 (amended): with empty delimiter and whitespace sets (and
`UsePunctuation` off), `Tokenize` splits text exactly at the four characters
of `isWhitespace` — space, tab, newline, carriage return — and at nothing
else: it equals the separator split at `isWhitespace`, for every punctuation
table and every text. -/
theorem claim_C9_empty_sets_split_at_ascii_whitespace
    (isPunct : Char → Bool) (text : List Char) :
    Tokenize isPunct text emptySetsOptions = splitAtSeparators isWhitespace text := by
  rw [Tokenize, emptySetsOptions]
  simp only [List.isEmpty_nil, if_pos, if_neg]
  rw [tokGo_no_delim _ isWhitespace (fun r => by rfl) text []]
  rw [splitAtSeparators]
  congr 1
  have hid : (fun (s : List Char) => [] ++ s) = (fun s => s) := by
    funext s
    rw [List.nil_append]
  rw [hid, modifyHead_self]

/-! ## Generic run-splitting lemmas -/

theorem takeWhile_append_stop {α : Type} (p : α → Bool) (xs ys : List α)
    (h : xs.dropWhile p ≠ []) : (xs ++ ys).takeWhile p = xs.takeWhile p := by
  induction xs with
  | nil => simp at h
  | cons x xs ih =>
    by_cases hx : p x
    · rw [List.dropWhile_cons, if_pos hx] at h
      rw [List.cons_append, List.takeWhile_cons, if_pos hx, List.takeWhile_cons, if_pos hx,
        ih h]
    · rw [List.cons_append, List.takeWhile_cons, if_neg hx, List.takeWhile_cons, if_neg hx]

theorem dropWhile_append_stop {α : Type} (p : α → Bool) (xs ys : List α)
    (h : xs.dropWhile p ≠ []) : (xs ++ ys).dropWhile p = xs.dropWhile p ++ ys := by
  induction xs with
  | nil => simp at h
  | cons x xs ih =>
    by_cases hx : p x
    · rw [List.dropWhile_cons, if_pos hx] at h
      rw [List.cons_append, List.dropWhile_cons, if_pos hx, List.dropWhile_cons, if_pos hx,
        ih h]
    · rw [List.cons_append, List.dropWhile_cons, if_neg hx, List.dropWhile_cons, if_neg hx]
      rw [List.cons_append]

theorem takeWhile_append_all {α : Type} (p : α → Bool) (xs ys : List α)
    (h : ∀ x ∈ xs, p x = true) : (xs ++ ys).takeWhile p = xs ++ ys.takeWhile p := by
  induction xs with
  | nil => simp
  | cons x xs ih =>
    rw [List.cons_append, List.takeWhile_cons, if_pos (h x (List.mem_cons_self x xs)),
      List.cons_append, ih (fun a ha => h a (List.mem_cons_of_mem x ha))]

theorem dropWhile_append_all {α : Type} (p : α → Bool) (xs ys : List α)
    (h : ∀ x ∈ xs, p x = true) : (xs ++ ys).dropWhile p = ys.dropWhile p := by
  induction xs with
  | nil => simp
  | cons x xs ih =>
    rw [List.cons_append, List.dropWhile_cons, if_pos (h x (List.mem_cons_self x xs)),
      ih (fun a ha => h a (List.mem_cons_of_mem x ha))]

theorem getLast?_dropWhile {α : Type} (p : α → Bool) (xs : List α)
    (h : xs.dropWhile p ≠ []) : (xs.dropWhile p).getLast? = xs.getLast? := by
  induction xs with
  | nil => simp at h
  | cons x xs ih =>
    by_cases hx : p x
    · rw [List.dropWhile_cons, if_pos hx] at h ⊢
      rw [ih h]
      cases xs with
      | nil => simp at h
      | cons y ys => rw [List.getLast?_cons_cons]
    · rw [List.dropWhile_cons, if_neg hx]

/-! ## Claim C7 -/

theorem backShiftLoop_nil (dts : List String) : backShiftLoop [] dts = ([], dts) := by
  cases dts <;> rfl

theorem sba_nil (res : List Diff) : shiftBoundariesAux res [] = res := by
  rw [shiftBoundariesAux.eq_def]

theorem sba_no_delete (l : List Diff) (h : ∀ d ∈ l, d.type ≠ Operation.Delete) :
    ∀ res, shiftBoundariesAux res l = res ++ l := by
  induction l with
  | nil => intro res; rw [shiftBoundariesAux, List.append_nil]
  | cons d ds ih =>
    intro res
    rw [shiftBoundariesAux, dif_neg (h d (List.mem_cons_self d ds))]
    rw [ih (fun x hx => h x (List.mem_cons_of_mem d hx)) (res ++ [d])]
    rw [List.append_assoc, List.singleton_append]

theorem ctt_map_append (t : Operation) (toks : List String) (rest : List Diff)
    (h : ∀ d, rest.head? = some d → d.type ≠ t) :
    collectTokensOfType t (toks.map (fun tok => (⟨t, tok⟩ : Diff)) ++ rest) = (toks, rest) := by
  induction toks with
  | nil =>
    cases rest with
    | nil => rfl
    | cons r rs =>
      rw [List.map_nil, List.nil_append, collectTokensOfType,
        if_neg (h r (List.head?_cons))]
  | cons tok toks ih =>
    rw [List.map_cons, List.cons_append, collectTokensOfType]
    rw [if_pos rfl, ih]

theorem pdip_nil_closed_form (dts its : List String) :
    processDeleteInsertPair [] dts its
      = (dts.take (findCommonPfx dts its)).map (fun t => (⟨Operation.Equal, t⟩ : Diff))
        ++ ((dts.drop (findCommonPfx dts its)).take
            ((dts.drop (findCommonPfx dts its)).length
              - findCommonSfx (dts.drop (findCommonPfx dts its))
                  (its.drop (findCommonPfx dts its)))).map
            (fun t => (⟨Operation.Delete, t⟩ : Diff))
        ++ ((its.drop (findCommonPfx dts its)).take
            ((its.drop (findCommonPfx dts its)).length
              - findCommonSfx (dts.drop (findCommonPfx dts its))
                  (its.drop (findCommonPfx dts its)))).map
            (fun t => (⟨Operation.Insert, t⟩ : Diff))
        ++ ((dts.drop (findCommonPfx dts its)).drop
            ((dts.drop (findCommonPfx dts its)).length
              - findCommonSfx (dts.drop (findCommonPfx dts its))
                  (its.drop (findCommonPfx dts its)))).map
            (fun t => (⟨Operation.Equal, t⟩ : Diff)) := by
  rw [processDeleteInsertPair]
  simp only [List.reverse_nil, backShiftLoop_nil, List.reverse_nil, appendTokensAsDiffs,
    List.nil_append, List.append_assoc]

/-- C7: `ShiftBoundaries` re-emits the longest common prefix of a `Delete`
run and the immediately following `Insert` run as `Equal`, consuming it from
both (and then the longest common suffix of the remainders as trailing
`Equal`): on an input consisting of one `Delete` run followed by one `Insert`
run, the output is the common prefix as `Equal` ops, the remaining deletes,
the remaining inserts, and the common suffix as `Equal` ops. In particular
`ShiftBoundaries [Delete x, Delete a, Insert x, Insert b]
= [Equal x, Delete a, Insert b]`. -/
theorem claim_C7_shift_reemits_common_prefix_as_equal :
    (∀ dts its : List String,
      ShiftBoundaries (dts.map (fun t => (⟨Operation.Delete, t⟩ : Diff))
          ++ its.map (fun t => (⟨Operation.Insert, t⟩ : Diff)))
        = (dts.take (findCommonPfx dts its)).map (fun t => (⟨Operation.Equal, t⟩ : Diff))
          ++ ((dts.drop (findCommonPfx dts its)).take
              ((dts.drop (findCommonPfx dts its)).length
                - findCommonSfx (dts.drop (findCommonPfx dts its))
                    (its.drop (findCommonPfx dts its)))).map
              (fun t => (⟨Operation.Delete, t⟩ : Diff))
          ++ ((its.drop (findCommonPfx dts its)).take
              ((its.drop (findCommonPfx dts its)).length
                - findCommonSfx (dts.drop (findCommonPfx dts its))
                    (its.drop (findCommonPfx dts its)))).map
              (fun t => (⟨Operation.Insert, t⟩ : Diff))
          ++ ((dts.drop (findCommonPfx dts its)).drop
              ((dts.drop (findCommonPfx dts its)).length
                - findCommonSfx (dts.drop (findCommonPfx dts its))
                    (its.drop (findCommonPfx dts its)))).map
              (fun t => (⟨Operation.Equal, t⟩ : Diff))) ∧
    ShiftBoundaries [⟨Operation.Delete, "x"⟩, ⟨Operation.Delete, "a"⟩,
        ⟨Operation.Insert, "x"⟩, ⟨Operation.Insert, "b"⟩]
      = [⟨Operation.Equal, "x"⟩, ⟨Operation.Delete, "a"⟩, ⟨Operation.Insert, "b"⟩] := by
  constructor
  · intro dts its
    cases dts with
    | nil =>
      simp only [List.map_nil, List.nil_append]
      have h0 : findCommonPfx [] its = 0 := rfl
      have h1 : findCommonSfx ([] : List String) its = 0 := by
        rw [findCommonSfx, List.reverse_nil]
        rfl
      rw [h0]
      simp only [List.drop_zero, List.take_nil, List.drop_nil, List.map_nil, List.nil_append,
        List.append_nil, h1, List.length_nil]
      rw [ShiftBoundaries]
      by_cases hits : its = []
      · subst hits; rfl
      · rw [if_neg (by simpa using hits)]
        rw [sba_no_delete _ (fun d hd => by
          obtain ⟨t, _, rfl⟩ := List.mem_map.mp hd
          exact fun hc => Operation.noConfusion hc) []]
        rw [List.nil_append]
        simp
    | cons t ts =>
      rw [ShiftBoundaries, if_neg (by simp)]
      rw [show ((t :: ts).map (fun tok => (⟨Operation.Delete, tok⟩ : Diff))
            ++ its.map (fun tok => (⟨Operation.Insert, tok⟩ : Diff)))
          = (⟨Operation.Delete, t⟩ :: (ts.map (fun tok => (⟨Operation.Delete, tok⟩ : Diff))
            ++ its.map (fun tok => (⟨Operation.Insert, tok⟩ : Diff)))) from by
        rw [List.map_cons, List.cons_append]]
      rw [shiftBoundariesAux, dif_pos rfl]
      have hc1 : collectTokensOfType Operation.Delete
          ((t :: ts).map (fun tok => (⟨Operation.Delete, tok⟩ : Diff))
            ++ its.map (fun tok => (⟨Operation.Insert, tok⟩ : Diff)))
          = (t :: ts, its.map (fun tok => (⟨Operation.Insert, tok⟩ : Diff))) := by
        apply ctt_map_append
        intro d hd
        cases its with
        | nil => simp at hd
        | cons i is =>
          rw [List.map_cons, List.head?_cons, Option.some_inj] at hd
          rw [← hd]
          exact fun hc => Operation.noConfusion hc
      have hc2 : collectTokensOfType Operation.Insert
          (its.map (fun tok => (⟨Operation.Insert, tok⟩ : Diff)))
          = (its, ([] : List Diff)) := by
        have := ctt_map_append Operation.Insert its [] (fun d hd => by simp at hd)
        simpa using this
      rw [show ((t :: ts).map (fun tok => (⟨Operation.Delete, tok⟩ : Diff))
            ++ its.map (fun tok => (⟨Operation.Insert, tok⟩ : Diff)))
          = (⟨Operation.Delete, t⟩ :: (ts.map (fun tok => (⟨Operation.Delete, tok⟩ : Diff))
            ++ its.map (fun tok => (⟨Operation.Insert, tok⟩ : Diff)))) from by
        rw [List.map_cons, List.cons_append]] at hc1
      rw [hc1, hc2, sba_nil]
      exact pdip_nil_closed_form (t :: ts) its
  · have h := pdip_nil_closed_form ["x", "a"] ["x", "b"]
    rw [ShiftBoundaries, if_neg (by simp)]
    rw [shiftBoundariesAux, dif_pos rfl]
    have hc1 : collectTokensOfType Operation.Delete
        [⟨Operation.Delete, "x"⟩, ⟨Operation.Delete, "a"⟩,
         ⟨Operation.Insert, "x"⟩, ⟨Operation.Insert, "b"⟩]
        = (["x", "a"], [⟨Operation.Insert, "x"⟩, ⟨Operation.Insert, "b"⟩]) := by
      simp [collectTokensOfType]
    have hc2 : collectTokensOfType Operation.Insert
        [⟨Operation.Insert, "x"⟩, ⟨Operation.Insert, "b"⟩]
        = (["x", "b"], ([] : List Diff)) := by
      simp [collectTokensOfType]
    rw [hc1, hc2, sba_nil, h]
    norm_num [findCommonPfx, findCommonSfx]
    rfl

/-! ## Claim C3 -/

theorem amc_nil (mc : Int) (b : Bool) : amcGo mc b [] = [] := by
  rw [amcGo.eq_def]

theorem dropWhile_ne_nil_of_getLast {α : Type} (p : α → Bool) (xs : List α) (d : α)
    (h : xs.getLast? = some d) (hd : p d = false) : xs.dropWhile p ≠ [] := by
  induction xs with
  | nil => simp at h
  | cons x xs ih =>
    cases xs with
    | nil =>
      rw [List.getLast?_singleton, Option.some_inj] at h
      subst h
      rw [List.dropWhile_cons, if_neg (by rw [hd]; exact Bool.false_ne_true)]
      exact List.cons_ne_nil _ _
    | cons y ys =>
      rw [List.getLast?_cons_cons] at h
      by_cases hx : p x
      · rw [List.dropWhile_cons, if_pos hx]
        exact ih h
      · rw [List.dropWhile_cons, if_neg hx]
        exact List.cons_ne_nil _ _

theorem amcGo_flag_of_head_change (mc : Int) (l : List Diff)
    (h : ∀ d, l.head? = some d → d.type ≠ Operation.Equal) (b1 b2 : Bool) :
    amcGo mc b1 l = amcGo mc b2 l := by
  cases l with
  | nil => rw [amc_nil, amc_nil]
  | cons d ds =>
    have hd := h d List.head?_cons
    rw [amcGo, dif_neg hd, amcGo, dif_neg hd]

theorem amcGo_append (mc : Int) : ∀ (n : Nat) (xs ys : List Diff) (b : Bool),
    xs.length ≤ n → xs ≠ [] →
    (∀ d, xs.getLast? = some d → d.type ≠ Operation.Equal) →
    amcGo mc b (xs ++ ys) = amcGo mc b xs ++ amcGo mc true ys := by
  intro n
  induction n with
  | zero =>
    intro xs ys b hlen hne _
    cases xs with
    | nil => exact absurd rfl hne
    | cons d ds => simp at hlen
  | succ n ih =>
    intro xs ys b hlen hne hlast
    cases xs with
    | nil => exact absurd rfl hne
    | cons d ds =>
      by_cases hEq : d.type = Operation.Equal
      · have hdlast : ((d :: ds).getLast?).isSome := by
          cases ds <;> simp [List.getLast?_cons_cons]
        obtain ⟨dl, hdl⟩ := Option.isSome_iff_exists.mp hdlast
        have hdlne := hlast dl hdl
        have hstop : (d :: ds).dropWhile (fun x => decide (x.type = Operation.Equal)) ≠ [] := by
          apply dropWhile_ne_nil_of_getLast _ _ dl hdl
          simp [hdlne]
        rw [List.cons_append, amcGo, dif_pos hEq, ← List.cons_append]
        rw [takeWhile_append_stop _ _ _ hstop, dropWhile_append_stop _ _ _ hstop]
        have hrest0 : ((d :: ds).dropWhile
            (fun x => decide (x.type = Operation.Equal))).length ≤ n := by
          have h1 : (d :: ds).dropWhile (fun x => decide (x.type = Operation.Equal))
              = ds.dropWhile (fun x => decide (x.type = Operation.Equal)) := by
            rw [List.dropWhile_cons, if_pos (by simpa using hEq)]
          rw [h1]
          have h2 : ∀ (l : List Diff),
              (l.dropWhile (fun x => decide (x.type = Operation.Equal))).length ≤ l.length := by
            intro l
            induction l with
            | nil => simp
            | cons z zs ihz =>
              by_cases hz : z.type = Operation.Equal
              · rw [List.dropWhile_cons, if_pos (by simpa using hz)]
                exact Nat.le_trans ihz (Nat.le_succ _)
              · rw [List.dropWhile_cons, if_neg (by simpa using hz)]
          have h3 := h2 ds
          rw [List.length_cons] at hlen
          omega
        have hrne : (d :: ds).dropWhile (fun x => decide (x.type = Operation.Equal)) ≠ [] :=
          hstop
        have hrlast : ∀ e, ((d :: ds).dropWhile
            (fun x => decide (x.type = Operation.Equal))).getLast? = some e →
            e.type ≠ Operation.Equal := by
          intro e he
          rw [getLast?_dropWhile _ _ hstop] at he
          exact hlast e he
        rw [ih _ ys false hrest0 hrne hrlast]
        rw [amcGo, dif_pos hEq]
        obtain ⟨z, zs, hz⟩ := List.exists_cons_of_ne_nil hstop
        have hne1 : (!((d :: ds).dropWhile
            (fun x => decide (x.type = Operation.Equal))).isEmpty) = true := by
          rw [hz]
          rfl
        have hne2 : (!(((d :: ds).dropWhile
              (fun x => decide (x.type = Operation.Equal))) ++ ys).isEmpty) = true := by
          rw [hz, List.cons_append]
          rfl
        rw [hne1, hne2]
        rw [List.append_assoc]
      · rw [List.cons_append, amcGo, dif_neg hEq, amcGo, dif_neg hEq]
        cases ds with
        | nil =>
          rw [List.nil_append, amc_nil, List.cons_append, List.nil_append]
        | cons e es =>
          rw [ih (e :: es) ys true (by rw [List.length_cons] at hlen; omega)
            (List.cons_ne_nil _ _) (fun x hx => hlast x (by
              rw [List.getLast?_cons_cons]
              exact hx))]
          rw [List.cons_append]

/-- When every op of a list is `Equal`, the `ApplyMatchContext` loop copies
the whole list unchanged, whatever the incoming `prevChange` flag: the run
has no following change (`equalEnd = len(diffs)`), so it is never converted. -/
theorem amcGo_all_equal (mc : Int) (b : Bool) (run : List Diff)
    (hrun : ∀ d ∈ run, d.type = Operation.Equal) : amcGo mc b run = run := by
  cases run with
  | nil => exact amc_nil mc b
  | cons e rs =>
    have hEq : e.type = Operation.Equal := hrun e (List.mem_cons_self e rs)
    have htake : (e :: rs).takeWhile (fun x => decide (x.type = Operation.Equal)) = e :: rs :=
      List.takeWhile_eq_self_iff.mpr (fun x hx => by simpa using hrun x hx)
    have hdrop : (e :: rs).dropWhile (fun x => decide (x.type = Operation.Equal)) = [] :=
      List.dropWhile_eq_nil_iff.mpr (fun x hx => by simpa using hrun x hx)
    rw [amcGo, dif_pos hEq, htake, hdrop, amc_nil, List.append_nil]
    rw [show (!(([] : List Diff)).isEmpty) = false from rfl, Bool.and_false, Bool.false_and,
      if_neg Bool.false_ne_true]

/-- C3: `ApplyMatchContext` (a) returns its input unchanged whenever
`minContext ≤ 0`; (b) replaces a maximal `Equal` run bounded by a change
(`Delete` or `Insert`) immediately on both sides and shorter than
`minContext` by a `Delete` immediately followed by an `Insert` of each of
its tokens in order, leaving the surrounding ops processed exactly as they
are on their own; (c) copies an `Equal` run that touches the start of the
sequence unchanged, whatever its length, the rest processed as on its own;
(d) likewise copies an `Equal` run that touches the end of the sequence
unchanged; and (e) in particular maps
`[Delete a, Equal x, Insert b]` with `minContext = 2` to
`[Delete a, Delete x, Insert x, Insert b]`. -/
theorem claim_C3_apply_match_context_conversion :
    (∀ (diffs : List Diff) (mc : Int), mc ≤ 0 → ApplyMatchContext diffs mc = diffs) ∧
    (∀ (pre run post : List Diff) (mc : Int), 0 < mc →
      pre ≠ [] → post ≠ [] →
      (∀ d, pre.getLast? = some d → d.type ≠ Operation.Equal) →
      (∀ d, post.head? = some d → d.type ≠ Operation.Equal) →
      (∀ d ∈ run, d.type = Operation.Equal) →
      ApplyMatchContext (pre ++ run ++ post) mc
        = ApplyMatchContext pre mc
          ++ (if (run.length : Int) < mc then
                run.flatMap (fun e => [⟨Operation.Delete, e.token⟩, ⟨Operation.Insert, e.token⟩])
              else run)
          ++ ApplyMatchContext post mc) ∧
    (∀ (run post : List Diff) (mc : Int), 0 < mc →
      (∀ d, post.head? = some d → d.type ≠ Operation.Equal) →
      (∀ d ∈ run, d.type = Operation.Equal) →
      ApplyMatchContext (run ++ post) mc = run ++ ApplyMatchContext post mc) ∧
    (∀ (pre run : List Diff) (mc : Int), 0 < mc →
      pre ≠ [] →
      (∀ d, pre.getLast? = some d → d.type ≠ Operation.Equal) →
      (∀ d ∈ run, d.type = Operation.Equal) →
      ApplyMatchContext (pre ++ run) mc = ApplyMatchContext pre mc ++ run) ∧
    (∀ a x b : String,
      ApplyMatchContext [⟨Operation.Delete, a⟩, ⟨Operation.Equal, x⟩, ⟨Operation.Insert, b⟩] 2
        = [⟨Operation.Delete, a⟩, ⟨Operation.Delete, x⟩, ⟨Operation.Insert, x⟩,
           ⟨Operation.Insert, b⟩]) := by
  refine ⟨?_, ?_, ?_, ?_, ?_⟩
  · intro diffs mc hmc
    rw [ApplyMatchContext, if_pos (Or.inl hmc)]
  · intro pre run post mc hmc hpre hpost hplast hphead hrun
    have hnoteq : ¬ (mc ≤ 0 ∨ pre ++ run ++ post = []) := by
      intro hor
      rcases hor with hc | hc
      · omega
      · exact hpre (List.append_eq_nil.mp (List.append_eq_nil.mp hc).1).1
    have hu1 : ApplyMatchContext (pre ++ run ++ post) mc
        = amcGo mc false (pre ++ run ++ post) := by
      rw [ApplyMatchContext, if_neg hnoteq]
    have hu2 : ApplyMatchContext pre mc = amcGo mc false pre := by
      rw [ApplyMatchContext, if_neg]
      intro hor
      rcases hor with hc | hc
      · omega
      · exact hpre hc
    have hu3 : ApplyMatchContext post mc = amcGo mc false post := by
      rw [ApplyMatchContext, if_neg]
      intro hor
      rcases hor with hc | hc
      · omega
      · exact hpost hc
    rw [hu1, hu2, hu3]
    rw [List.append_assoc pre run post]
    rw [amcGo_append mc pre.length pre (run ++ post) false (Nat.le_refl _) hpre hplast]
    rw [List.append_assoc]
    congr 1
    cases run with
    | nil =>
      rw [List.nil_append]
      simp only [List.flatMap_nil, ite_self, List.nil_append]
      exact amcGo_flag_of_head_change mc post hphead true false
    | cons e rs =>
      have hEq : e.type = Operation.Equal := hrun e (List.mem_cons_self e rs)
      obtain ⟨p, ps, hpp⟩ := List.exists_cons_of_ne_nil hpost
      have hphne : p.type ≠ Operation.Equal := hphead p (by rw [hpp, List.head?_cons])
      have htake : ((e :: rs) ++ post).takeWhile
          (fun x => decide (x.type = Operation.Equal)) = e :: rs := by
        rw [takeWhile_append_all _ _ _ (fun x hx => by simpa using hrun x hx)]
        rw [hpp, List.takeWhile_cons, if_neg (by simpa using hphne), List.append_nil]
      have hdrop : ((e :: rs) ++ post).dropWhile
          (fun x => decide (x.type = Operation.Equal)) = post := by
        rw [dropWhile_append_all _ _ _ (fun x hx => by simpa using hrun x hx)]
        rw [hpp, List.dropWhile_cons, if_neg (by simpa using hphne)]
      rw [List.cons_append, amcGo, dif_pos hEq, ← List.cons_append, htake, hdrop]
      have hpostne : (!post.isEmpty) = true := by
        rw [hpp]
        rfl
      rw [hpostne]
      simp only [Bool.true_and]
      by_cases hcond : ((e :: rs).length : Int) < mc
      · rw [if_pos hcond, if_pos (by simpa using hcond)]
      · rw [if_neg hcond, if_neg (by simpa using hcond)]
  · intro run post mc hmc hphead hrun
    have hu3 : ApplyMatchContext post mc = amcGo mc false post := by
      cases post with
      | nil => rw [ApplyMatchContext, if_pos (Or.inr rfl), amc_nil]
      | cons p ps =>
        rw [ApplyMatchContext, if_neg]
        intro hor
        rcases hor with hc | hc
        · omega
        · exact List.cons_ne_nil p ps hc
    cases run with
    | nil => rw [List.nil_append, List.nil_append]
    | cons e rs =>
      have hu1 : ApplyMatchContext ((e :: rs) ++ post) mc
          = amcGo mc false ((e :: rs) ++ post) := by
        rw [ApplyMatchContext, if_neg]
        intro hor
        rcases hor with hc | hc
        · omega
        · rw [List.cons_append] at hc
          exact List.cons_ne_nil e (rs ++ post) hc
      have hEq : e.type = Operation.Equal := hrun e (List.mem_cons_self e rs)
      have htake : ((e :: rs) ++ post).takeWhile (fun x => decide (x.type = Operation.Equal))
          = e :: rs := by
        rw [takeWhile_append_all _ _ _ (fun x hx => by simpa using hrun x hx)]
        cases post with
        | nil => rw [List.takeWhile_nil, List.append_nil]
        | cons p ps =>
          have hphne : p.type ≠ Operation.Equal := hphead p List.head?_cons
          rw [List.takeWhile_cons, if_neg (by simpa using hphne), List.append_nil]
      have hdrop : ((e :: rs) ++ post).dropWhile (fun x => decide (x.type = Operation.Equal))
          = post := by
        rw [dropWhile_append_all _ _ _ (fun x hx => by simpa using hrun x hx)]
        cases post with
        | nil => rw [List.dropWhile_nil]
        | cons p ps =>
          have hphne : p.type ≠ Operation.Equal := hphead p List.head?_cons
          rw [List.dropWhile_cons, if_neg (by simpa using hphne)]
      rw [hu1, hu3, List.cons_append, amcGo, dif_pos hEq, ← List.cons_append, htake, hdrop]
      rw [Bool.false_and, Bool.false_and, if_neg Bool.false_ne_true]
  · intro pre run mc hmc hpre hplast hrun
    have hu1 : ApplyMatchContext (pre ++ run) mc = amcGo mc false (pre ++ run) := by
      rw [ApplyMatchContext, if_neg]
      intro hor
      rcases hor with hc | hc
      · omega
      · exact hpre (List.append_eq_nil.mp hc).1
    have hu2 : ApplyMatchContext pre mc = amcGo mc false pre := by
      rw [ApplyMatchContext, if_neg]
      intro hor
      rcases hor with hc | hc
      · omega
      · exact hpre hc
    rw [hu1, hu2, amcGo_append mc pre.length pre run false (Nat.le_refl _) hpre hplast,
      amcGo_all_equal mc true run hrun]
  · intro a x b
    simp [ApplyMatchContext, amcGo, List.takeWhile_cons, List.dropWhile_cons, amc_nil]

/-- C3 (witness): the conversion equation of the claim theorem applied at the
spec's concrete instance, the hypotheses discharged at
`pre = [Delete a], run = [Equal x], post = [Insert b], minContext = 2`, and
the two boundary pass-through equations at the start-touching run
`[Equal x] ++ [Insert b]` and the end-touching run `[Delete a] ++ [Equal x]`,
both shorter than `minContext = 2`. -/
theorem claim_C3_witness :
    (ApplyMatchContext
        ([⟨Operation.Delete, "a"⟩] ++ [⟨Operation.Equal, "x"⟩] ++ [⟨Operation.Insert, "b"⟩]) 2
      = ApplyMatchContext [⟨Operation.Delete, "a"⟩] 2
        ++ (if (([⟨Operation.Equal, "x"⟩] : List Diff).length : Int) < 2 then
              ([⟨Operation.Equal, "x"⟩] : List Diff).flatMap
                (fun e => [⟨Operation.Delete, e.token⟩, ⟨Operation.Insert, e.token⟩])
            else [⟨Operation.Equal, "x"⟩])
        ++ ApplyMatchContext [⟨Operation.Insert, "b"⟩] 2) ∧
    (ApplyMatchContext ([⟨Operation.Equal, "x"⟩] ++ [⟨Operation.Insert, "b"⟩]) 2
      = [⟨Operation.Equal, "x"⟩] ++ ApplyMatchContext [⟨Operation.Insert, "b"⟩] 2) ∧
    (ApplyMatchContext ([⟨Operation.Delete, "a"⟩] ++ [⟨Operation.Equal, "x"⟩]) 2
      = ApplyMatchContext [⟨Operation.Delete, "a"⟩] 2 ++ [⟨Operation.Equal, "x"⟩]) :=
  ⟨claim_C3_apply_match_context_conversion.2.1
    [⟨Operation.Delete, "a"⟩] [⟨Operation.Equal, "x"⟩] [⟨Operation.Insert, "b"⟩] 2
    (by norm_num) (by simp) (by simp)
    (by
      intro d hd
      simp only [List.getLast?_singleton, Option.some_inj] at hd
      subst hd
      exact fun hc => Operation.noConfusion hc)
    (by
      intro d hd
      simp only [List.head?_cons, Option.some_inj] at hd
      subst hd
      exact fun hc => Operation.noConfusion hc)
    (by
      intro d hd
      simp only [List.mem_singleton] at hd
      subst hd
      rfl),
   claim_C3_apply_match_context_conversion.2.2.1
    [⟨Operation.Equal, "x"⟩] [⟨Operation.Insert, "b"⟩] 2
    (by norm_num)
    (by
      intro d hd
      simp only [List.head?_cons, Option.some_inj] at hd
      subst hd
      exact fun hc => Operation.noConfusion hc)
    (by
      intro d hd
      simp only [List.mem_singleton] at hd
      subst hd
      rfl),
   claim_C3_apply_match_context_conversion.2.2.2.1
    [⟨Operation.Delete, "a"⟩] [⟨Operation.Equal, "x"⟩] 2
    (by norm_num) (by simp)
    (by
      intro d hd
      simp only [List.getLast?_singleton, Option.some_inj] at hd
      subst hd
      exact fun hc => Operation.noConfusion hc)
    (by
      intro d hd
      simp only [List.mem_singleton] at hd
      subst hd
      rfl)⟩

/-! ## Claim C6 -/

theorem joinTokens_singleton (t : String) : joinTokens [t] = t := by
  rw [joinTokens, joinTail, String.append_empty]

theorem aggGo_head_type (ds : List Diff) : ∀ (t : Operation) (toks : List String),
    toks ≠ [] → ∃ tok rest2, aggGo (some t) toks ds = ⟨t, tok⟩ :: rest2 := by
  induction ds with
  | nil =>
    intro t toks hne
    obtain ⟨x, xs, rfl⟩ := List.exists_cons_of_ne_nil hne
    exact ⟨joinTokens (x :: xs), [], rfl⟩
  | cons d ds ih =>
    intro t toks hne
    by_cases h : some d.type = some t
    · rw [aggGo, if_pos h]
      exact ih t (toks ++ [d.token]) (by simp)
    · rw [aggGo, if_neg h]
      obtain ⟨x, xs, rfl⟩ := List.exists_cons_of_ne_nil hne
      exact ⟨joinTokens (x :: xs), aggGo (some d.type) [d.token] ds, rfl⟩

theorem aggGo_chain (ds : List Diff) : ∀ (t : Operation) (toks : List String),
    toks ≠ [] →
    List.Chain' (fun a b => a.type ≠ b.type) (aggGo (some t) toks ds) := by
  induction ds with
  | nil =>
    intro t toks hne
    obtain ⟨x, xs, rfl⟩ := List.exists_cons_of_ne_nil hne
    exact List.chain'_singleton _
  | cons d ds ih =>
    intro t toks hne
    by_cases h : some d.type = some t
    · rw [aggGo, if_pos h]
      exact ih t (toks ++ [d.token]) (by simp)
    · rw [aggGo, if_neg h]
      obtain ⟨x, xs, rfl⟩ := List.exists_cons_of_ne_nil hne
      obtain ⟨tok, rest2, heq⟩ := aggGo_head_type ds d.type [d.token] (by simp)
      rw [flushAgg, if_neg (by simp), List.singleton_append, heq]
      apply List.Chain'.cons
      · intro hc
        have hc2 : t = d.type := hc
        exact h (by rw [hc2])
      · rw [← heq]
        exact ih d.type [d.token] (by simp)

theorem aggGo_fix_cons (ds : List Diff) : ∀ (t : Operation) (tok : String),
    List.Chain' (fun a b => a.type ≠ b.type) ((⟨t, tok⟩ : Diff) :: ds) →
    aggGo (some t) [tok] ds = ⟨t, tok⟩ :: ds := by
  induction ds with
  | nil =>
    intro t tok _
    rw [aggGo, flushAgg, if_neg (by simp), joinTokens_singleton]
  | cons e es ih =>
    intro t tok hch
    have hne : t ≠ e.type := by
      have := List.chain'_cons.mp hch
      exact this.1
    rw [aggGo, if_neg (by
      intro hc
      exact hne (Option.some_inj.mp hc).symm)]
    rw [flushAgg, if_neg (by simp), joinTokens_singleton, List.singleton_append]
    have hch2 : List.Chain' (fun a b => a.type ≠ b.type) ((⟨e.type, e.token⟩ : Diff) :: es) :=
      (List.chain'_cons.mp hch).2
    rw [ih e.type e.token hch2]

theorem aggregate_chain (l : List Diff) :
    List.Chain' (fun a b => a.type ≠ b.type) (AggregateDiffs l) := by
  cases l with
  | nil => exact List.chain'_nil
  | cons d ds =>
    rw [AggregateDiffs, if_neg (by simp), aggGo, if_neg (by simp), flushAgg,
      List.nil_append]
    exact aggGo_chain ds d.type [d.token] (by simp)

theorem aggregate_fix (l : List Diff)
    (h : List.Chain' (fun a b => a.type ≠ b.type) l) : AggregateDiffs l = l := by
  cases l with
  | nil => rfl
  | cons d ds =>
    rw [AggregateDiffs, if_neg (by simp), aggGo, if_neg (by simp), flushAgg,
      List.nil_append]
    exact aggGo_fix_cons ds d.type d.token h

/-- C6: `AggregateDiffs` is idempotent: applying it twice yields the same
result as applying it once, for every diff sequence. (The first application
produces a sequence in which adjacent ops always have different types, and
`AggregateDiffs` is the identity on such sequences.) -/
theorem claim_C6_aggregate_idempotent (diffs : List Diff) :
    AggregateDiffs (AggregateDiffs diffs) = AggregateDiffs diffs :=
  aggregate_fix _ (aggregate_chain diffs)

/-! ## Claim C4 -/

theorem apr_nil (b : Bool) : aprGo b [] = [] := by
  rw [aprGo.eq_def]

theorem aprGo_flag_of_head_keep (l : List Nat)
    (h : l = [] ∨ l.head? = some discardKeep) (b1 b2 : Bool) :
    aprGo b1 l = aprGo b2 l := by
  cases l with
  | nil => rw [apr_nil, apr_nil]
  | cons s ss =>
    rcases h with h | h
    · exact absurd h (List.cons_ne_nil s ss)
    · rw [List.head?_cons, Option.some_inj] at h
      rw [aprGo, dif_pos h, aprGo, dif_pos h]

theorem aprGo_append (tail : List Nat) : ∀ (n : Nat) (pre : List Nat) (b : Bool),
    pre.length ≤ n → pre ≠ [] → pre.getLast? = some discardKeep →
    aprGo b (pre ++ tail) = aprGo b pre ++ aprGo false tail := by
  intro n
  induction n with
  | zero =>
    intro pre b hlen hne _
    cases pre with
    | nil => exact absurd rfl hne
    | cons s ss => simp at hlen
  | succ n ih =>
    intro pre b hlen hne hlast
    cases pre with
    | nil => exact absurd rfl hne
    | cons s ss =>
      by_cases hs : s = discardKeep
      · rw [List.cons_append, aprGo, dif_pos hs, aprGo, dif_pos hs]
        cases ss with
        | nil =>
          rw [List.nil_append, apr_nil, List.cons_append, List.nil_append]
        | cons e es =>
          rw [ih (e :: es) false (by rw [List.length_cons] at hlen; omega)
            (List.cons_ne_nil _ _) (by rw [List.getLast?_cons_cons] at hlast; exact hlast)]
          rw [List.cons_append]
      · have hstop : (s :: ss).dropWhile (fun x => !(decide (x = discardKeep))) ≠ [] := by
          apply dropWhile_ne_nil_of_getLast _ _ discardKeep hlast
          simp
        rw [List.cons_append, aprGo, dif_neg hs, ← List.cons_append]
        rw [takeWhile_append_stop _ _ _ hstop, dropWhile_append_stop _ _ _ hstop]
        obtain ⟨z, zs, hz⟩ := List.exists_cons_of_ne_nil hstop
        have hrne1 : (!((s :: ss).dropWhile
            (fun x => !(decide (x = discardKeep)))).isEmpty) = true := by
          rw [hz]; rfl
        have hrne2 : (!(((s :: ss).dropWhile
            (fun x => !(decide (x = discardKeep)))) ++ tail).isEmpty) = true := by
          rw [hz, List.cons_append]; rfl
        rw [hrne2]
        have hrest0 : ((s :: ss).dropWhile (fun x => !(decide (x = discardKeep)))).length ≤ n := by
          have h1 : (s :: ss).dropWhile (fun x => !(decide (x = discardKeep)))
              = ss.dropWhile (fun x => !(decide (x = discardKeep))) := by
            rw [List.dropWhile_cons, if_pos (by simp [hs])]
          have h2 : ∀ (l : List Nat),
              (l.dropWhile (fun x => !(decide (x = discardKeep)))).length ≤ l.length := by
            intro l
            induction l with
            | nil => simp
            | cons z' zs' ihz =>
              by_cases hz' : z' = discardKeep
              · rw [List.dropWhile_cons, if_neg (by simp [hz'])]
              · rw [List.dropWhile_cons, if_pos (by simp [hz'])]
                exact Nat.le_trans ihz (Nat.le_succ _)
          have h3 := h2 ss
          rw [h1, List.length_cons] at *
          omega
        rw [ih _ false hrest0 hstop (by
          rw [getLast?_dropWhile _ _ hstop]
          exact hlast)]
        rw [aprGo, dif_neg hs, hrne1]
        rw [List.append_assoc]

theorem aprGo_run_decomp (atStart : Bool) (run post : List Nat) (hne : run ≠ [])
    (hall : ∀ s ∈ run, s ≠ discardKeep)
    (hpost : post = [] ∨ post.head? = some discardKeep) :
    aprGo atStart (run ++ post)
      = (if (!atStart) && (!post.isEmpty) && decide (0 < run.length)
            && decide (run.length
              ≤ 4 * run.countP (fun x => decide (x = discardProvisional))) then
           run.map (fun x => if x = discardProvisional then discardKeep else x)
         else run) ++ aprGo false post := by
  obtain ⟨x, xs, rfl⟩ := List.exists_cons_of_ne_nil hne
  have hx : ¬ x = discardKeep := hall x (List.mem_cons_self x xs)
  have htake : ((x :: xs) ++ post).takeWhile (fun s => !(decide (s = discardKeep)))
      = x :: xs := by
    rw [takeWhile_append_all _ _ _ (fun s hs => by simp [hall s hs])]
    cases post with
    | nil => simp
    | cons p ps =>
      rcases hpost with h | h
      · exact absurd h (List.cons_ne_nil p ps)
      · rw [List.head?_cons, Option.some_inj] at h
        rw [List.takeWhile_cons, if_neg (by simp [h]), List.append_nil]
  have hdrop : ((x :: xs) ++ post).dropWhile (fun s => !(decide (s = discardKeep)))
      = post := by
    rw [dropWhile_append_all _ _ _ (fun s hs => by simp [hall s hs])]
    cases post with
    | nil => simp
    | cons p ps =>
      rcases hpost with h | h
      · exact absurd h (List.cons_ne_nil p ps)
      · rw [List.head?_cons, Option.some_inj] at h
        rw [List.dropWhile_cons, if_neg (by simp [h])]
  rw [List.cons_append, aprGo, dif_neg hx, ← List.cons_append, htake, hdrop]

theorem apr_eq_aprGo_false (post : List Nat)
    (hpost : post = [] ∨ post.head? = some discardKeep) :
    applyProvisionalRules post = aprGo false post := by
  rw [applyProvisionalRules]
  exact aprGo_flag_of_head_keep post hpost true false

/-- C4: within `DiscardConfusingTokens`' refinement pass
(`applyProvisionalRules`), a maximal run of non-`Keep` statuses bounded by a
`Keep` status immediately before and after it has its `ProvisionallyDiscard`
entries promoted back to `Keep` exactly when the provisional fraction of the
run is at least `0.25` (as the exact integer comparison
`runLen ≤ 4 * provisionalCount`); a run touching the start of the array (no
`Keep` before it) is never promoted, and a run touching the end (no `Keep`
after it) is never promoted, while everything outside the run is processed
exactly as it is on its own. -/
theorem claim_C4_provisional_run_promotion :
    (∀ (pre run post : List Nat),
      pre ≠ [] → pre.getLast? = some discardKeep →
      run ≠ [] → (∀ s ∈ run, s ≠ discardKeep) →
      (post = [] ∨ post.head? = some discardKeep) →
      applyProvisionalRules (pre ++ run ++ post)
        = applyProvisionalRules pre
          ++ (if post ≠ [] ∧ run.length
                ≤ 4 * run.countP (fun x => decide (x = discardProvisional)) then
                run.map (fun x => if x = discardProvisional then discardKeep else x)
              else run)
          ++ applyProvisionalRules post) ∧
    (∀ (run post : List Nat),
      run ≠ [] → (∀ s ∈ run, s ≠ discardKeep) →
      (post = [] ∨ post.head? = some discardKeep) →
      applyProvisionalRules (run ++ post) = run ++ applyProvisionalRules post) := by
  constructor
  · intro pre run post hpre hplast hrne hrall hpost
    rw [applyProvisionalRules, List.append_assoc pre run post]
    rw [aprGo_append (run ++ post) pre.length pre true (Nat.le_refl _) hpre hplast]
    rw [aprGo_run_decomp false run post hrne hrall hpost]
    rw [← apr_eq_aprGo_false post hpost]
    rw [← applyProvisionalRules]
    rw [← List.append_assoc]
    congr 2
    obtain ⟨x, xs, rfl⟩ := List.exists_cons_of_ne_nil hrne
    by_cases hp : post = []
    · subst hp
      simp
    · obtain ⟨p, ps, rfl⟩ := List.exists_cons_of_ne_nil hp
      by_cases hr : (x :: xs).length
          ≤ 4 * (x :: xs).countP (fun s => decide (s = discardProvisional))
      · simp [hr]
      · simp [hr]
  · intro run post hrne hrall hpost
    rw [applyProvisionalRules]
    rw [aprGo_run_decomp true run post hrne hrall hpost]
    rw [← apr_eq_aprGo_false post hpost]
    congr 1

/-- C4 (witness): the claim theorem applied at
`pre = [Keep], run = [Provisional], post = [Keep]`: the fully provisional run
between two kept endpoints (ratio 1 ≥ 0.25) is promoted, so
`applyProvisionalRules [0, 2, 0] = [0, 0, 0]`, and the start-touching variant
`applyProvisionalRules [2, 0] = [2, 0]` is left alone. -/
theorem claim_C4_witness :
    (applyProvisionalRules ([discardKeep] ++ [discardProvisional] ++ [discardKeep])
      = applyProvisionalRules [discardKeep]
        ++ (if [discardKeep] ≠ ([] : List Nat) ∧ ([discardProvisional] : List Nat).length
              ≤ 4 * ([discardProvisional] : List Nat).countP
                  (fun x => decide (x = discardProvisional)) then
              ([discardProvisional] : List Nat).map
                (fun x => if x = discardProvisional then discardKeep else x)
            else [discardProvisional])
        ++ applyProvisionalRules [discardKeep]) ∧
    applyProvisionalRules ([discardProvisional] ++ [discardKeep])
      = [discardProvisional] ++ applyProvisionalRules [discardKeep] :=
  ⟨claim_C4_provisional_run_promotion.1 [discardKeep] [discardProvisional] [discardKeep]
    (by simp) (by rw [List.getLast?_singleton]) (by simp)
    (by intro s hs; rw [List.mem_singleton.mp hs]; decide)
    (Or.inr (by rw [List.head?_cons])),
   claim_C4_provisional_run_promotion.2 [discardProvisional] [discardKeep]
    (by simp) (by intro s hs; rw [List.mem_singleton.mp hs]; decide)
    (Or.inr (by rw [List.head?_cons]))⟩

/-! ## Claim C10 -/

theorem length_dropWhile_le' {α : Type} (p : α → Bool) (l : List α) :
    (l.dropWhile p).length ≤ l.length := by
  induction l with
  | nil => simp
  | cons x xs ih =>
    by_cases hx : p x
    · rw [List.dropWhile_cons, if_pos hx]
      exact Nat.le_trans ih (Nat.le_succ _)
    · rw [List.dropWhile_cons, if_neg hx]

theorem takeWhile_add_dropWhile_length {α : Type} (p : α → Bool) (l : List α) :
    (l.takeWhile p).length + (l.dropWhile p).length = l.length := by
  conv_rhs => rw [← List.takeWhile_append_dropWhile (p := p) (l := l)]
  rw [List.length_append]

theorem apr_length : ∀ (n : Nat) (l : List Nat) (b : Bool), l.length ≤ n →
    (aprGo b l).length = l.length := by
  intro n
  induction n with
  | zero =>
    intro l b hlen
    cases l with
    | nil => rw [apr_nil]
    | cons s ss => simp at hlen
  | succ n ih =>
    intro l b hlen
    cases l with
    | nil => rw [apr_nil]
    | cons s ss =>
      by_cases hs : s = discardKeep
      · rw [aprGo, dif_pos hs, List.length_cons, List.length_cons,
          ih ss false (by rw [List.length_cons] at hlen; omega)]
      · rw [aprGo, dif_neg hs, List.length_append]
        have hdl : ((s :: ss).dropWhile (fun x => !(decide (x = discardKeep)))).length
            ≤ n := by
          have h1 : (s :: ss).dropWhile (fun x => !(decide (x = discardKeep)))
              = ss.dropWhile (fun x => !(decide (x = discardKeep))) := by
            rw [List.dropWhile_cons, if_pos (by simp [hs])]
          rw [h1]
          have := length_dropWhile_le' (fun x => !(decide (x = discardKeep))) ss
          rw [List.length_cons] at hlen
          omega
        rw [ih _ false hdl]
        have hsum := takeWhile_add_dropWhile_length
          (fun x => !(decide (x = discardKeep))) (s :: ss)
        split
        · rw [List.length_map]
          omega
        · omega

theorem apr_false_survivor : ∀ (n : Nat) (l : List Nat), l.length ≤ n →
    (∀ s ∈ l, s = discardKeep ∨ s = discardProvisional) →
    ∀ i s', (aprGo false l)[i]? = some s' → s' ≠ discardKeep →
    ∀ j, i ≤ j → j < l.length →
    ∃ t, (aprGo false l)[j]? = some t ∧ t ≠ discardKeep := by
  intro n
  induction n with
  | zero =>
    intro l hlen _ i s' hi _ j _ hj
    cases l with
    | nil => simp at hj
    | cons s ss => simp at hlen
  | succ n ih =>
    intro l hlen hkp i s' hi hs' j hij hj
    cases l with
    | nil => simp at hj
    | cons s ss =>
      by_cases hs : s = discardKeep
      · rw [aprGo, dif_pos hs] at hi ⊢
        cases i with
        | zero =>
          rw [List.getElem?_cons_zero, Option.some_inj] at hi
          exact absurd (hi ▸ hs) hs'
        | succ i' =>
          rw [List.getElem?_cons_succ] at hi
          cases j with
          | zero => omega
          | succ j' =>
            rw [List.getElem?_cons_succ]
            exact ih ss (by rw [List.length_cons] at hlen; omega)
              (fun x hx => hkp x (List.mem_cons_of_mem s hx)) i' s' hi hs' j'
              (by omega) (by rw [List.length_cons] at hj; omega)
      · rw [aprGo, dif_neg hs] at hi ⊢
        have hallrun : ∀ x ∈ (s :: ss).takeWhile (fun y => !(decide (y = discardKeep))),
            x = discardProvisional := by
          intro x hx
          have hxk := List.mem_takeWhile_imp hx
          simp only [Bool.not_eq_true', decide_eq_false_iff_not] at hxk
          rcases hkp x ((List.takeWhile_sublist _).mem hx) with h | h
          · exact absurd h hxk
          · exact h
        have hsum := takeWhile_add_dropWhile_length
          (fun y => !(decide (y = discardKeep))) (s :: ss)
        by_cases hrest : (s :: ss).dropWhile (fun y => !(decide (y = discardKeep))) = []
        · have hcond : ((!false) && !(((s :: ss).dropWhile
                (fun y => !(decide (y = discardKeep)))).isEmpty)
              && decide (0 < ((s :: ss).takeWhile
                  (fun y => !(decide (y = discardKeep)))).length)
              && decide (((s :: ss).takeWhile (fun y => !(decide (y = discardKeep)))).length
                ≤ 4 * ((s :: ss).takeWhile
                    (fun y => !(decide (y = discardKeep)))).countP
                    (fun y => decide (y = discardProvisional)))) = false := by
            rw [hrest]
            simp
          rw [hcond] at hi ⊢
          rw [if_neg (by simp)] at hi ⊢
          rw [hrest, apr_nil, List.append_nil] at hi ⊢
          have hjlen : j < ((s :: ss).takeWhile
              (fun y => !(decide (y = discardKeep)))).length := by
            rw [hrest] at hsum
            simp only [List.length_nil, Nat.add_zero] at hsum
            omega
          rw [List.getElem?_eq_getElem hjlen]
          refine ⟨_, rfl, ?_⟩
          rw [hallrun _ (List.getElem_mem hjlen)]
          decide
        · obtain ⟨z, zs, hz⟩ := List.exists_cons_of_ne_nil hrest
          have hrunpos : 0 < ((s :: ss).takeWhile
              (fun y => !(decide (y = discardKeep)))).length := by
            rw [List.takeWhile_cons, if_pos (by simp [hs])]
            simp
          have hc : ((s :: ss).takeWhile
                (fun y => !(decide (y = discardKeep)))).countP
                (fun y => decide (y = discardProvisional))
              = ((s :: ss).takeWhile (fun y => !(decide (y = discardKeep)))).length :=
            List.countP_eq_length.mpr (fun x hx => by rw [hallrun x hx]; simp)
          have hcond : ((!false) && !(((s :: ss).dropWhile
                (fun y => !(decide (y = discardKeep)))).isEmpty)
              && decide (0 < ((s :: ss).takeWhile
                  (fun y => !(decide (y = discardKeep)))).length)
              && decide (((s :: ss).takeWhile (fun y => !(decide (y = discardKeep)))).length
                ≤ 4 * ((s :: ss).takeWhile
                    (fun y => !(decide (y = discardKeep)))).countP
                    (fun y => decide (y = discardProvisional)))) = true := by
            have h1 : (!((s :: ss).dropWhile
                (fun y => !(decide (y = discardKeep)))).isEmpty) = true := by
              rw [hz]
              rfl
            have h2 : decide (0 < ((s :: ss).takeWhile
                (fun y => !(decide (y = discardKeep)))).length) = true :=
              decide_eq_true hrunpos
            have h3 : decide (((s :: ss).takeWhile
                  (fun y => !(decide (y = discardKeep)))).length
                ≤ 4 * ((s :: ss).takeWhile
                    (fun y => !(decide (y = discardKeep)))).countP
                    (fun y => decide (y = discardProvisional))) = true :=
              decide_eq_true (by rw [hc]; omega)
            rw [h1, h2, h3]
            rfl
          rw [hcond, if_pos rfl] at hi ⊢
          have hmaplen : (((s :: ss).takeWhile (fun y => !(decide (y = discardKeep)))).map
              (fun x => if x = discardProvisional then discardKeep else x)).length
              = ((s :: ss).takeWhile (fun y => !(decide (y = discardKeep)))).length :=
            List.length_map _ _
          have hige : (((s :: ss).takeWhile (fun y => !(decide (y = discardKeep)))).map
              (fun x => if x = discardProvisional then discardKeep else x)).length ≤ i := by
            by_contra hlt
            push_neg at hlt
            rw [List.getElem?_append_left hlt] at hi
            rw [List.getElem?_map] at hi
            rw [hmaplen] at hlt
            rw [List.getElem?_eq_getElem hlt, Option.map_some', Option.some_inj] at hi
            rw [hallrun _ (List.getElem_mem hlt)] at hi
            rw [if_pos rfl] at hi
            exact hs' hi.symm
          rw [List.getElem?_append_right hige] at hi
          have hjge : (((s :: ss).takeWhile (fun y => !(decide (y = discardKeep)))).map
              (fun x => if x = discardProvisional then discardKeep else x)).length ≤ j :=
            Nat.le_trans hige hij
          rw [List.getElem?_append_right hjge]
          have hrlen : ((s :: ss).dropWhile
              (fun y => !(decide (y = discardKeep)))).length ≤ n := by
            have h1 : (s :: ss).dropWhile (fun y => !(decide (y = discardKeep)))
                = ss.dropWhile (fun y => !(decide (y = discardKeep))) := by
              rw [List.dropWhile_cons, if_pos (by simp [hs])]
            rw [h1]
            have := length_dropWhile_le' (fun y => !(decide (y = discardKeep))) ss
            rw [List.length_cons] at hlen
            omega
          apply ih _ hrlen
            (fun x hx => hkp x ((List.dropWhile_sublist _).mem hx))
            (i - (((s :: ss).takeWhile (fun y => !(decide (y = discardKeep)))).map
              (fun x => if x = discardProvisional then discardKeep else x)).length) s' hi hs'
          · omega
          · rw [hmaplen]
            omega

theorem run_nonkeep_survivors (s : Nat) (ss : List Nat) (hs : ¬ s = discardKeep) :
    ∀ j, j < ((s :: ss).takeWhile (fun y => !(decide (y = discardKeep)))).length →
    ∃ t, (((s :: ss).takeWhile (fun y => !(decide (y = discardKeep))))
        ++ aprGo false ((s :: ss).dropWhile (fun y => !(decide (y = discardKeep)))))[j]?
        = some t ∧ t ≠ discardKeep := by
  intro j hjlt
  rw [List.getElem?_append_left hjlt, List.getElem?_eq_getElem hjlt]
  refine ⟨_, rfl, ?_⟩
  have hmem := List.getElem_mem hjlt
  have := List.mem_takeWhile_imp hmem
  simp only [Bool.not_eq_true', decide_eq_false_iff_not] at this
  exact this

theorem apr_true_survivor (l : List Nat)
    (hkp : ∀ s ∈ l, s = discardKeep ∨ s = discardProvisional)
    (i s' : Nat) (hi : (aprGo true l)[i]? = some s') (hs' : s' ≠ discardKeep) :
    (∀ j, j ≤ i → j < l.length →
      ∃ t, (aprGo true l)[j]? = some t ∧ t ≠ discardKeep) ∨
    (∀ j, i ≤ j → j < l.length →
      ∃ t, (aprGo true l)[j]? = some t ∧ t ≠ discardKeep) := by
  cases l with
  | nil =>
    rw [apr_nil] at hi
    simp at hi
  | cons s ss =>
    by_cases hs : s = discardKeep
    · rw [aprGo, dif_pos hs] at hi ⊢
      cases i with
      | zero =>
        rw [List.getElem?_cons_zero, Option.some_inj] at hi
        exact absurd (hi ▸ hs) hs'
      | succ i' =>
        rw [List.getElem?_cons_succ] at hi
        right
        intro j hij hj
        cases j with
        | zero => omega
        | succ j' =>
          rw [List.getElem?_cons_succ]
          exact apr_false_survivor ss.length ss (Nat.le_refl _)
            (fun x hx => hkp x (List.mem_cons_of_mem s hx)) i' s' hi hs' j'
            (by omega) (by rw [List.length_cons] at hj; omega)
    · have hout : aprGo true (s :: ss)
          = ((s :: ss).takeWhile (fun y => !(decide (y = discardKeep))))
            ++ aprGo false ((s :: ss).dropWhile (fun y => !(decide (y = discardKeep)))) := by
        rw [aprGo, dif_neg hs]
        congr 1
      rw [hout] at hi ⊢
      have hsum := takeWhile_add_dropWhile_length
        (fun y => !(decide (y = discardKeep))) (s :: ss)
      by_cases hilt : i < ((s :: ss).takeWhile (fun y => !(decide (y = discardKeep)))).length
      · left
        intro j hij hj
        exact run_nonkeep_survivors s ss hs j (by omega)
      · right
        push_neg at hilt
        intro j hij hj
        by_cases hjlt : j < ((s :: ss).takeWhile (fun y => !(decide (y = discardKeep)))).length
        · exact run_nonkeep_survivors s ss hs j hjlt
        · push_neg at hjlt
          rw [List.getElem?_append_right hilt] at hi
          rw [List.getElem?_append_right hjlt]
          have hrest : ∀ x ∈ (s :: ss).dropWhile (fun y => !(decide (y = discardKeep))),
              x = discardKeep ∨ x = discardProvisional :=
            fun x hx => hkp x ((List.dropWhile_sublist _).mem hx)
          apply apr_false_survivor ((s :: ss).dropWhile
              (fun y => !(decide (y = discardKeep)))).length _ (Nat.le_refl _) hrest
            _ s' hi hs'
          · omega
          · omega

theorem bf_ge : ∀ (ts : List String) (ds : List Nat) (i0 x : Nat),
    x ∈ (buildFiltered ts ds i0).2 → i0 ≤ x := by
  intro ts
  induction ts with
  | nil =>
    intro ds i0 x hx
    rw [buildFiltered.eq_def] at hx
    cases ds <;> simp at hx
  | cons t ts ih =>
    intro ds i0 x hx
    cases ds with
    | nil =>
      rw [buildFiltered.eq_def] at hx
      simp at hx
    | cons s ss =>
      rw [buildFiltered] at hx
      by_cases hs : s = discardKeep
      · rw [if_pos hs] at hx
        rcases List.mem_cons.mp hx with h | h
        · omega
        · have := ih ss (i0 + 1) x h
          omega
      · rw [if_neg hs] at hx
        have := ih ss (i0 + 1) x hx
        omega

theorem bf_mem : ∀ (ts : List String) (ds : List Nat) (i0 k : Nat),
    ts.length = ds.length → k < ds.length →
    ((i0 + k) ∈ (buildFiltered ts ds i0).2 ↔ ds[k]? = some discardKeep) := by
  intro ts
  induction ts with
  | nil =>
    intro ds i0 k hlen hk
    rw [List.length_nil] at hlen
    rw [← hlen] at hk
    omega
  | cons t ts ih =>
    intro ds i0 k hlen hk
    cases ds with
    | nil => simp at hk
    | cons s ss =>
      rw [buildFiltered]
      cases k with
      | zero =>
        rw [List.getElem?_cons_zero, Nat.add_zero]
        by_cases hs : s = discardKeep
        · rw [if_pos hs, hs]
          simp
        · rw [if_neg hs]
          constructor
          · intro hmem
            have := bf_ge ts ss (i0 + 1) i0 hmem
            omega
          · intro hc
            rw [Option.some_inj] at hc
            exact absurd hc hs
      | succ k' =>
        rw [List.getElem?_cons_succ]
        have hih := ih ss (i0 + 1) k'
          (by rw [List.length_cons, List.length_cons] at hlen; omega)
          (by rw [List.length_cons] at hk; omega)
        rw [show i0 + (k' + 1) = (i0 + 1) + k' from by omega]
        by_cases hs : s = discardKeep
        · rw [if_pos hs, List.mem_cons]
          constructor
          · intro h
            rcases h with h | h
            · omega
            · exact hih.mp h
          · intro h
            exact Or.inr (hih.mpr h)
        · rw [if_neg hs]
          exact hih

theorem mark_status (tokens : List String) (otherCounts : String → Nat) (threshold : Nat) :
    ∀ s ∈ markTokensForDiscard tokens otherCounts threshold,
    s = discardKeep ∨ s = discardProvisional := by
  intro s hs
  rw [markTokensForDiscard] at hs
  obtain ⟨t, _, ht⟩ := List.mem_map.mp hs
  by_cases hc : otherCounts t > threshold
  · rw [if_pos hc] at ht
    exact Or.inr ht.symm
  · rw [if_neg hc] at ht
    exact Or.inl ht.symm

theorem dct_side_survivor (tokens : List String) (counts : String → Nat) (many : Nat)
    (i : Nat) (hi : i < tokens.length)
    (hnm : i ∉ (buildFiltered tokens (applyProvisionalRules
      (markTokensForDiscard tokens counts many)) 0).2) :
    (∀ j, j ≤ i → j ∉ (buildFiltered tokens (applyProvisionalRules
      (markTokensForDiscard tokens counts many)) 0).2) ∨
    (∀ j, i ≤ j → j < tokens.length →
      j ∉ (buildFiltered tokens (applyProvisionalRules
        (markTokensForDiscard tokens counts many)) 0).2) := by
  have hlen0 : (markTokensForDiscard tokens counts many).length = tokens.length := by
    rw [markTokensForDiscard, List.length_map]
  have hlen1 : (applyProvisionalRules (markTokensForDiscard tokens counts many)).length
      = tokens.length := by
    rw [applyProvisionalRules,
      apr_length (markTokensForDiscard tokens counts many).length _ true (Nat.le_refl _),
      hlen0]
  have hmemiff : ∀ k, k < tokens.length →
      (k ∈ (buildFiltered tokens (applyProvisionalRules
        (markTokensForDiscard tokens counts many)) 0).2 ↔
      (applyProvisionalRules (markTokensForDiscard tokens counts many))[k]?
        = some discardKeep) := by
    intro k hk
    have := bf_mem tokens (applyProvisionalRules (markTokensForDiscard tokens counts many))
      0 k (by rw [hlen1]) (by rw [hlen1]; exact hk)
    simpa using this
  have hii : i < (applyProvisionalRules (markTokensForDiscard tokens counts many)).length := by
    rw [hlen1]
    exact hi
  have hsome : (applyProvisionalRules (markTokensForDiscard tokens counts many))[i]?
      = some ((applyProvisionalRules (markTokensForDiscard tokens counts many)).get ⟨i, hii⟩) :=
    List.getElem?_eq_getElem hii
  have hsne : (applyProvisionalRules (markTokensForDiscard tokens counts many)).get ⟨i, hii⟩
      ≠ discardKeep := by
    intro hc
    apply hnm
    rw [hmemiff i hi, hsome, hc]
  have hsurv := apr_true_survivor (markTokensForDiscard tokens counts many)
    (mark_status tokens counts many) i _ hsome hsne
  rcases hsurv with hleft | hright
  · left
    intro j hji
    have hj : j < tokens.length := by omega
    obtain ⟨t, ht, htne⟩ := hleft j hji (by rw [hlen0]; exact hj)
    intro hmem
    rw [hmemiff j hj] at hmem
    have ht2 : (applyProvisionalRules (markTokensForDiscard tokens counts many))[j]?
        = some t := ht
    rw [ht2, Option.some_inj] at hmem
    exact htne hmem
  · right
    intro j hij hj
    obtain ⟨t, ht, htne⟩ := hright j hij (by rw [hlen0]; exact hj)
    intro hmem
    rw [hmemiff j hj] at hmem
    have ht2 : (applyProvisionalRules (markTokensForDiscard tokens counts many))[j]?
        = some t := ht
    rw [ht2, Option.some_inj] at hmem
    exact htne hmem

/-- C10: `markTokensForDiscard` assigns only `Keep` or `ProvisionallyDiscard`
(never `DefinitelyDiscard`), so every interior non-`Keep` run is fully
provisional and is promoted by the refinement pass; consequently
`DiscardConfusingTokens` removes a token from a filtered output only when it
lies in a run of removed tokens touching the start or the end of the token
array: on either side, an index `i` missing from the returned index map has
either all indices `≤ i` missing or all indices from `i` to the end missing. -/
theorem claim_C10_removals_only_in_boundary_runs :
    (∀ (tokens : List String) (otherCounts : String → Nat) (threshold : Nat),
      ∀ s ∈ markTokensForDiscard tokens otherCounts threshold,
      s = discardKeep ∨ s = discardProvisional) ∧
    (∀ (tokens1 tokens2 : List String) (i : Nat), i < tokens1.length →
      i ∉ (DiscardConfusingTokens tokens1 tokens2).2.2.1 →
      (∀ j, j ≤ i → j ∉ (DiscardConfusingTokens tokens1 tokens2).2.2.1) ∨
      (∀ j, i ≤ j → j < tokens1.length →
        j ∉ (DiscardConfusingTokens tokens1 tokens2).2.2.1)) ∧
    (∀ (tokens1 tokens2 : List String) (i : Nat), i < tokens2.length →
      i ∉ (DiscardConfusingTokens tokens1 tokens2).2.2.2 →
      (∀ j, j ≤ i → j ∉ (DiscardConfusingTokens tokens1 tokens2).2.2.2) ∨
      (∀ j, i ≤ j → j < tokens2.length →
        j ∉ (DiscardConfusingTokens tokens1 tokens2).2.2.2)) := by
  refine ⟨mark_status, ?_, ?_⟩
  · intro tokens1 tokens2 i hi hnm
    have hm : (DiscardConfusingTokens tokens1 tokens2).2.2.1
        = (buildFiltered tokens1 (applyProvisionalRules
          (markTokensForDiscard tokens1 (fun t => tokens2.count t)
            (confusionThreshold (tokens1.length + tokens2.length)))) 0).2 := rfl
    rw [hm] at hnm ⊢
    exact dct_side_survivor tokens1 (fun t => tokens2.count t) _ i hi hnm
  · intro tokens1 tokens2 i hi hnm
    have hm : (DiscardConfusingTokens tokens1 tokens2).2.2.2
        = (buildFiltered tokens2 (applyProvisionalRules
          (markTokensForDiscard tokens2 (fun t => tokens1.count t)
            (confusionThreshold (tokens1.length + tokens2.length)))) 0).2 := rfl
    rw [hm] at hnm ⊢
    exact dct_side_survivor tokens2 (fun t => tokens1.count t) _ i hi hnm

theorem confusionThreshold_four : confusionThreshold 4 = 2 := by
  have h0 : sqrtGo 4 = 5/2 := by
    have h1 : sqrtGo 4 = sqrtIter 4 100 4 := by
      rw [sqrtGo, if_neg (by norm_num)]
    have h2 : sqrtIter 4 100 4 = sqrtIter 4 99 (5/2) := by
      rw [show (100 : Nat) = 99 + 1 from rfl, sqrtIter_succ, if_neg (by norm_num)]
      norm_num
    have h3 : sqrtIter 4 99 (5/2) = 5/2 := by
      rw [show (99 : Nat) = 98 + 1 from rfl, sqrtIter_succ, if_pos (by norm_num)]
    rw [h1, h2, h3]
  have hfl : (⌊sqrtGo ((4 : Nat) : ℚ)⌋ : Int) = 2 := by
    rw [show (((4 : Nat)) : ℚ) = 4 by norm_num, h0, Int.floor_eq_iff]
    norm_num
  rw [confusionThreshold]
  simp only [hfl]
  rfl

theorem dct_small_eval :
    (DiscardConfusingTokens ["-"] ["-", "-", "-"]).2.2.1 = ([] : List Nat) := by
  show (buildFiltered ["-"] (applyProvisionalRules (markTokensForDiscard ["-"]
    (fun t => (["-", "-", "-"] : List String).count t) (confusionThreshold 4))) 0).2 = []
  rw [confusionThreshold_four]
  have hm : markTokensForDiscard ["-"]
      (fun t => (["-", "-", "-"] : List String).count t) 2 = [discardProvisional] := by
    rw [markTokensForDiscard, List.map_singleton, if_pos (by decide)]
  rw [hm]
  have ha : applyProvisionalRules [discardProvisional] = [discardProvisional] := by
    rw [applyProvisionalRules, aprGo, dif_neg (by decide)]
    rw [show ([discardProvisional] : List Nat).takeWhile
        (fun x => !(decide (x = discardKeep))) = [discardProvisional] from by decide]
    rw [show ([discardProvisional] : List Nat).dropWhile
        (fun x => !(decide (x = discardKeep))) = [] from by decide]
    rw [apr_nil, List.append_nil]
    rw [if_neg (by decide)]
  rw [ha]
  rw [buildFiltered, if_neg (by decide)]
  rfl

/-- C10 (witness): the claim theorem applied at
`tokens1 = ["-"], tokens2 = ["-", "-", "-"]`: the threshold is 2, the dash
occurs 3 times in side two, so side one's only token is provisionally
discarded; its run touches both array boundaries, is not restored, and index
0 is removed from the index map, with the whole (one-element) array removed. -/
theorem claim_C10_witness :
    ((0 : Nat) < (["-"] : List String).length ∧
      (0 : Nat) ∉ (DiscardConfusingTokens ["-"] ["-", "-", "-"]).2.2.1) ∧
    ((∀ j, j ≤ 0 → j ∉ (DiscardConfusingTokens ["-"] ["-", "-", "-"]).2.2.1) ∨
      (∀ j, 0 ≤ j → j < (["-"] : List String).length →
        j ∉ (DiscardConfusingTokens ["-"] ["-", "-", "-"]).2.2.1)) :=
  ⟨⟨by norm_num, by rw [dct_small_eval]; exact List.not_mem_nil 0⟩,
   claim_C10_removals_only_in_boundary_runs.2.1 ["-"] ["-", "-", "-"] 0 (by norm_num)
    (by rw [dct_small_eval]; exact List.not_mem_nil 0)⟩
/-! ## Claim C5 -/

theorem fspGo_nil_fst (sim : String → String → ℚ) (thr : ℚ) (inserts : List String)
    (i : Nat) (used : List Bool) : (fspGo sim thr inserts [] i used).1 = [] := by
  rw [fspGo]

theorem fspGo_nil_snd (sim : String → String → ℚ) (thr : ℚ) (inserts : List String)
    (i : Nat) (used : List Bool) : (fspGo sim thr inserts [] i used).2 = used := by
  rw [fspGo]

theorem fspGo_cons_none (sim : String → String → ℚ) (thr : ℚ) (inserts : List String)
    (del : String) (rest : List String) (i : Nat) (used : List Bool)
    (h : (bestLoop sim del used inserts.enum (none, thr)).1 = none) :
    fspGo sim thr inserts (del :: rest) i used
      = fspGo sim thr inserts rest (i + 1) used := by
  rw [fspGo]
  split
  · rename_i j heq
    rw [h] at heq
    exact Option.noConfusion heq
  · rfl

theorem fspGo_cons_some_fst (sim : String → String → ℚ) (thr : ℚ) (inserts : List String)
    (del : String) (rest : List String) (i : Nat) (used : List Bool) (j : Nat)
    (h : (bestLoop sim del used inserts.enum (none, thr)).1 = some j) :
    (fspGo sim thr inserts (del :: rest) i used).1
      = ⟨i, j, (bestLoop sim del used inserts.enum (none, thr)).2⟩
          :: (fspGo sim thr inserts rest (i + 1) (used.set j true)).1 := by
  rw [fspGo]
  split
  · rename_i j' heq
    rw [h] at heq
    injection heq with heq
    subst heq
    rfl
  · rename_i heq
    rw [h] at heq
    exact Option.noConfusion heq

theorem fspGo_cons_some_snd (sim : String → String → ℚ) (thr : ℚ) (inserts : List String)
    (del : String) (rest : List String) (i : Nat) (used : List Bool) (j : Nat)
    (h : (bestLoop sim del used inserts.enum (none, thr)).1 = some j) :
    (fspGo sim thr inserts (del :: rest) i used).2
      = (fspGo sim thr inserts rest (i + 1) (used.set j true)).2 := by
  rw [fspGo]
  split
  · rename_i j' heq
    rw [h] at heq
    injection heq with heq
    subst heq
    rfl
  · rename_i heq
    rw [h] at heq
    exact Option.noConfusion heq

theorem bestLoop_invariant (sim : String → String → ℚ) (del : String) (used : List Bool)
    (inserts : List String) (thr : ℚ) :
    ∀ (pairs : List (Nat × String)),
    (∀ q ∈ pairs, inserts[q.1]? = some q.2) →
    ∀ best : Option Nat × ℚ,
    (thr ≤ best.2 ∧ ∀ j, best.1 = some j →
      used.getD j false = false ∧
      ∃ ins, inserts[j]? = some ins ∧ best.2 = sim del ins ∧ thr < best.2) →
    (thr ≤ (bestLoop sim del used pairs best).2 ∧
      ∀ j, (bestLoop sim del used pairs best).1 = some j →
      used.getD j false = false ∧
      ∃ ins, inserts[j]? = some ins ∧
        (bestLoop sim del used pairs best).2 = sim del ins ∧
        thr < (bestLoop sim del used pairs best).2) := by
  intro pairs
  induction pairs with
  | nil =>
    intro _ best hinv
    exact hinv
  | cons q rest ih =>
    intro hpairs best hinv
    obtain ⟨j, ins⟩ := q
    rw [bestLoop]
    split
    · exact ih (fun q hq => hpairs q (List.mem_cons_of_mem _ hq)) best hinv
    · rename_i hused
      split
      · rename_i hgt
        apply ih (fun q hq => hpairs q (List.mem_cons_of_mem _ hq))
        refine ⟨le_of_lt (lt_of_le_of_lt hinv.1 hgt), ?_⟩
        intro j' hj'
        have hj2 : some j = some j' := hj'
        injection hj2 with hj2
        subst hj2
        exact ⟨by simpa using hused, ins,
          hpairs (j, ins) (List.mem_cons_self _ _), rfl,
          lt_of_le_of_lt hinv.1 hgt⟩
      · exact ih (fun q hq => hpairs q (List.mem_cons_of_mem _ hq)) best hinv

theorem bestLoop_all_below (sim : String → String → ℚ) (del : String) (used : List Bool)
    (thr : ℚ) :
    ∀ (pairs : List (Nat × String)),
    (∀ q ∈ pairs, used.getD q.1 false = false → sim del q.2 ≤ thr) →
    bestLoop sim del used pairs (none, thr) = (none, thr) := by
  intro pairs
  induction pairs with
  | nil => intro _; rfl
  | cons q rest ih =>
    intro hall
    obtain ⟨j, ins⟩ := q
    rw [bestLoop]
    split
    · exact ih (fun q hq => hall q (List.mem_cons_of_mem _ hq))
    · rename_i hused
      have hle : sim del ins ≤ thr :=
        hall (j, ins) (List.mem_cons_self _ _) (by simpa using hused)
      split
      · rename_i hgt
        exact absurd hgt (not_lt.mpr hle)
      · exact ih (fun q hq => hall q (List.mem_cons_of_mem _ hq))

theorem fspGo_index_range (sim : String → String → ℚ) (thr : ℚ) (inserts : List String) :
    ∀ (dels : List String) (i : Nat) (used : List Bool),
    ∀ p ∈ (fspGo sim thr inserts dels i used).1,
    i ≤ p.deleteIndex ∧ p.deleteIndex < i + dels.length := by
  intro dels
  induction dels with
  | nil =>
    intro i used p hp
    rw [fspGo_nil_fst] at hp
    exact absurd hp (List.not_mem_nil p)
  | cons del rest ih =>
    intro i used p hp
    rcases hcase : (bestLoop sim del used inserts.enum (none, thr)).1 with _ | j
    · rw [fspGo_cons_none sim thr inserts del rest i used hcase] at hp
      have hr := ih (i + 1) used p hp
      rw [List.length_cons]
      omega
    · rw [fspGo_cons_some_fst sim thr inserts del rest i used j hcase] at hp
      rcases List.mem_cons.mp hp with hp | hp
      · subst hp
        refine ⟨Nat.le_refl i, ?_⟩
        show i < i + (rest.length + 1)
        omega
      · have hr := ih (i + 1) (used.set j true) p hp
        rw [List.length_cons]
        omega

theorem fspGo_invariant (sim : String → String → ℚ) (thr : ℚ) (inserts : List String) :
    ∀ (dels : List String) (i : Nat) (used : List Bool),
    used.length = inserts.length →
    List.Pairwise (fun p q : LinePairing => p.insertIndex ≠ q.insertIndex)
      (fspGo sim thr inserts dels i used).1 ∧
    (∀ p ∈ (fspGo sim thr inserts dels i used).1,
      used.getD p.insertIndex false = false ∧ p.insertIndex < inserts.length ∧
      thr < p.similarity) := by
  intro dels
  induction dels with
  | nil =>
    intro i used _
    rw [fspGo_nil_fst]
    exact ⟨List.Pairwise.nil, fun p hp => absurd hp (List.not_mem_nil p)⟩
  | cons del rest ih =>
    intro i used hulen
    have hinv := bestLoop_invariant sim del used inserts thr inserts.enum
      (fun q hq => List.mem_enum_iff_getElem?.mp hq) (none, thr)
      ⟨le_refl thr, fun j hj => Option.noConfusion hj⟩
    rcases hcase : (bestLoop sim del used inserts.enum (none, thr)).1 with _ | j
    · rw [fspGo_cons_none sim thr inserts del rest i used hcase]
      exact ih (i + 1) used hulen
    · obtain ⟨hju, ins, hjins, hjsim, hjgt⟩ := hinv.2 j hcase
      have hjlt : j < inserts.length := by
        by_contra hge
        push_neg at hge
        rw [List.getElem?_eq_none hge] at hjins
        exact Option.noConfusion hjins
      have hjlt' : j < used.length := by rw [hulen]; exact hjlt
      have hulen2 : (used.set j true).length = inserts.length := by
        rw [List.length_set]
        exact hulen
      obtain ⟨ihpw, ihmem⟩ := ih (i + 1) (used.set j true) hulen2
      rw [fspGo_cons_some_fst sim thr inserts del rest i used j hcase]
      refine ⟨?_, ?_⟩
      · apply List.Pairwise.cons
        · intro q hq
          have hqu := (ihmem q hq).1
          show j ≠ q.insertIndex
          intro hc
          rw [← hc, List.getD_eq_getElem?_getD,
            List.getElem?_set_self hjlt'] at hqu
          exact Bool.noConfusion hqu
        · exact ihpw
      · intro p hp
        rcases List.mem_cons.mp hp with hp | hp
        · subst hp
          exact ⟨hju, hjlt, hjgt⟩
        · obtain ⟨hqu, hqlt, hqsim⟩ := ihmem p hp
          refine ⟨?_, hqlt, hqsim⟩
          by_cases hpj : p.insertIndex = j
          · rw [hpj, List.getD_eq_getElem?_getD,
              List.getElem?_set_self hjlt'] at hqu
            exact absurd hqu Bool.noConfusion
          · rw [List.getD_eq_getElem?_getD,
              List.getElem?_set_ne (fun he => hpj he.symm),
              ← List.getD_eq_getElem?_getD] at hqu
            exact hqu

theorem fspGo_append_fst (sim : String → String → ℚ) (thr : ℚ) (inserts : List String) :
    ∀ (l1 l2 : List String) (i : Nat) (used : List Bool),
    (fspGo sim thr inserts (l1 ++ l2) i used).1
      = (fspGo sim thr inserts l1 i used).1
        ++ (fspGo sim thr inserts l2 (i + l1.length)
            (fspGo sim thr inserts l1 i used).2).1 := by
  intro l1
  induction l1 with
  | nil =>
    intro l2 i used
    rw [List.nil_append, fspGo_nil_fst, fspGo_nil_snd, List.length_nil,
      Nat.add_zero, List.nil_append]
  | cons del rest ih =>
    intro l2 i used
    rcases hcase : (bestLoop sim del used inserts.enum (none, thr)).1 with _ | j
    · rw [List.cons_append,
        fspGo_cons_none sim thr inserts del (rest ++ l2) i used hcase,
        fspGo_cons_none sim thr inserts del rest i used hcase,
        ih l2 (i + 1) used, List.length_cons,
        show i + (rest.length + 1) = i + 1 + rest.length from by omega]
    · rw [List.cons_append,
        fspGo_cons_some_fst sim thr inserts del (rest ++ l2) i used j hcase,
        fspGo_cons_some_fst sim thr inserts del rest i used j hcase,
        fspGo_cons_some_snd sim thr inserts del rest i used j hcase,
        ih l2 (i + 1) (used.set j true), List.length_cons,
        show i + (rest.length + 1) = i + 1 + rest.length from by omega,
        List.cons_append]

/-- C5: `FindSimilarityPairings` (with the token similarity abstracted as
`sim`, standing for `ComputeTokenSimilarity(·, ·, opts)` for arbitrary
options) (a) never pairs the same inserted line with two deleted lines —
the recorded insert indices are pairwise distinct; (b) records only
pairings whose similarity is strictly greater than the threshold (and
whose insert index is in range); and (c) leaves a deleted line unpaired
whenever no inserted line that is still unused when that deleted line is
processed scores strictly above the threshold. -/
theorem claim_C5_similarity_pairing_invariants
    (deletes inserts : List String) (sim : String → String → ℚ) (threshold : ℚ) :
    List.Pairwise (fun p q : LinePairing => p.insertIndex ≠ q.insertIndex)
      (FindSimilarityPairings deletes inserts sim threshold) ∧
    (∀ p ∈ FindSimilarityPairings deletes inserts sim threshold,
      threshold < p.similarity ∧ p.insertIndex < inserts.length) ∧
    (∀ (i : Nat) (del : String), deletes[i]? = some del →
      (∀ (j : Nat) (ins : String), inserts[j]? = some ins →
        (fspUsedState deletes inserts sim threshold i).getD j false = false →
        sim del ins ≤ threshold) →
      ∀ p ∈ FindSimilarityPairings deletes inserts sim threshold,
        p.deleteIndex ≠ i) := by
  have hinv := fspGo_invariant sim threshold inserts deletes 0
    (List.replicate inserts.length false) (List.length_replicate _ _)
  refine ⟨hinv.1, fun p hp => ⟨(hinv.2 p hp).2.2, (hinv.2 p hp).2.1⟩, ?_⟩
  intro i del hdel hbelow p hp
  have hilen : i < deletes.length := by
    by_contra hge
    push_neg at hge
    rw [List.getElem?_eq_none hge] at hdel
    exact Option.noConfusion hdel
  have htlen : (deletes.take i).length = i := by
    rw [List.length_take]
    exact min_eq_left (le_of_lt hilen)
  have hsplit : deletes = deletes.take i ++ (del :: deletes.drop (i + 1)) := by
    conv_lhs => rw [← List.take_append_drop i deletes]
    congr 1
    rw [List.drop_eq_getElem_cons hilen]
    rw [List.getElem?_eq_getElem hilen, Option.some_inj] at hdel
    rw [hdel]
  have hp2 : p ∈ (fspGo sim threshold inserts
      (deletes.take i ++ (del :: deletes.drop (i + 1))) 0
      (List.replicate inserts.length false)).1 := by
    rw [← hsplit]
    exact hp
  rw [fspGo_append_fst sim threshold inserts (deletes.take i)
    (del :: deletes.drop (i + 1)) 0 (List.replicate inserts.length false)] at hp2
  rcases List.mem_append.mp hp2 with hp3 | hp3
  · have hr := fspGo_index_range sim threshold inserts (deletes.take i) 0
      (List.replicate inserts.length false) p hp3
    omega
  · have hall : ∀ q ∈ inserts.enum,
        (fspGo sim threshold inserts (deletes.take i) 0
          (List.replicate inserts.length false)).2.getD q.1 false = false →
        sim del q.2 ≤ threshold := by
      intro q hq hqu
      exact hbelow q.1 q.2 (List.mem_enum_iff_getElem?.mp hq) hqu
    have hnone := bestLoop_all_below sim del
      (fspGo sim threshold inserts (deletes.take i) 0
        (List.replicate inserts.length false)).2 threshold inserts.enum hall
    rw [fspGo_cons_none sim threshold inserts del (deletes.drop (i + 1))
      (0 + (deletes.take i).length)
      (fspGo sim threshold inserts (deletes.take i) 0
        (List.replicate inserts.length false)).2
      (by rw [hnone])] at hp3
    have hr := fspGo_index_range sim threshold inserts (deletes.drop (i + 1))
      (0 + (deletes.take i).length + 1)
      (fspGo sim threshold inserts (deletes.take i) 0
        (List.replicate inserts.length false)).2 p hp3
    omega

end Tokendiff
